import Mathlib

/-!
Verification development for the timeblock renderer core.

This file gives a shallow embedding of the pure algorithmic core of the
application and proves properties of it:

* the markdown persistence codec (`entriesToMarkdown` / `markdownToEntries`
  from `src/renderer/utils/time.ts`, the canonical region-limited version),
* the overlap layout engine (`computeOverlapLayout` from
  `src/renderer/utils/overlap.ts`),
* the pointer-drag arithmetic of the timeline component
  (creation commit, move delta application, cross-day transfer, edge resize),
* the active/next entry computation from `App.tsx`.

Modelling conventions:
* JS strings are `List Char` (abbreviated `Str`); `'\n'` is the only line
  terminator that occurs in the documents considered, and the multiline
  regex scan of the source is rendered as an equivalent line-based scan.
* JS numbers holding minutes are `Int`; pixel coordinates (which are
  fractional) are `ℚ`.  `Math.floor` on minute values is `Int.fdiv`, the
  JS `%` is `Int.tmod`, and `Math.round x` is `⌊x + 1/2⌋`.
* `Date.now()`-based id generation is nondeterministic in the source; the
  parser therefore takes a generator `gen : Nat → Str` supplying the k-th
  freshly generated id.
* The JS `Map` returned by `computeOverlapLayout` is an association list;
  entry ids are unique in the data model, so `Map.set` never overwrites.
-/

/-- JS strings, modelled as lists of characters. -/
abbrev Str := List Char

/-- The `TimeEntry` record from `src/renderer/types.ts`.  The optional
`done?: boolean` field is modelled as a `Bool` (absent = `false`). -/
structure TimeEntry where
  id : Str
  title : Str
  startMinutes : Int
  endMinutes : Int
  color : Str
  done : Bool
deriving DecidableEq, Repr

/-- `DAY_START_HOUR` from `utils/time.ts`. -/
def DAY_START_HOUR : Int := 6

/-- `DAY_END_HOUR` from `utils/time.ts`. -/
def DAY_END_HOUR : Int := 23

/-- `SNAP_MINUTES` from `utils/time.ts`. -/
def SNAP_MINUTES : Int := 15

/-- `pixelsToMinutes(pixels, hourHeight) = pixels / hourHeight * 60 + DAY_START_HOUR * 60`
from `utils/time.ts`, over exact rationals. -/
def pixelsToMinutes (pixels hourHeight : ℚ) : ℚ :=
  pixels / hourHeight * 60 + DAY_START_HOUR * 60

/-- `snapToGrid(minutes) = Math.round(minutes / 15) * 15` from `utils/time.ts`;
`Math.round x = ⌊x + 1/2⌋` (ties toward +∞). -/
def snapToGrid (minutes : ℚ) : Int :=
  ⌊minutes / (SNAP_MINUTES : ℚ) + 1/2⌋ * SNAP_MINUTES

/-- `snapToGrid` applied to an already-integral number of minutes. -/
def snapToGridI (minutes : Int) : Int :=
  snapToGrid (minutes : ℚ)

/-- Insert `x` into a sorted list directly before the first element `y` with
`le x y` (so an element inserted later — i.e. earlier in the original list —
precedes the elements it ties with). -/
def orderedInsert (le : α → α → Bool) (x : α) : List α → List α
  | [] => [x]
  | y :: t => if le x y then x :: y :: t else y :: orderedInsert le x t

/-- Stable sort by a boolean comparator.  `Array.prototype.sort` with a
consistent comparator is required to be a stable sort, and the stable sort
permutation is unique, so this structural insertion sort is an exact model
of the JS sorts in the source. -/
def stableSort (le : α → α → Bool) : List α → List α
  | [] => []
  | x :: t => orderedInsert le x (stableSort le t)

/-! ## Overlap layout engine (`utils/overlap.ts`) -/

/-- The sort comparator of `computeOverlapLayout`: start ascending, ties
broken by longer duration first. -/
def overlapLe (a b : TimeEntry) : Bool :=
  decide (a.startMinutes < b.startMinutes) ||
    (decide (a.startMinutes = b.startMinutes) &&
      decide (b.endMinutes - b.startMinutes ≤ a.endMinutes - a.startMinutes))

/-- `[...entries].sort(...)` of `computeOverlapLayout` (JS sort is stable). -/
def sortEntries (entries : List TimeEntry) : List TimeEntry :=
  stableSort overlapLe entries

/-- The sweep of `computeOverlapLayout` that forms maximal groups of
transitively overlapping entries: `groupEnd` is the running maximum end of
the current group, and an entry starts a new group exactly when
`entry.startMinutes < groupEnd` fails. -/
def buildGroupsAux (cur : List TimeEntry) (groupEnd : Int) :
    List TimeEntry → List (List TimeEntry)
  | [] => [cur]
  | e :: rest =>
    if e.startMinutes < groupEnd then
      buildGroupsAux (cur ++ [e]) (max groupEnd e.endMinutes) rest
    else
      cur :: buildGroupsAux [e] e.endMinutes rest

/-- Groups of transitively overlapping entries (empty input gives no groups,
mirroring the early return of the source). -/
def buildGroups : List TimeEntry → List (List TimeEntry)
  | [] => []
  | e :: rest => buildGroupsAux [e] e.endMinutes rest

/-- The inner column scan: find the first column whose tracked end time is
`≤ start`, set its end to `endT`, and report its index; `none` when no
column qualifies. -/
def place (start endT : Int) : List Int → Option (Nat × List Int)
  | [] => none
  | c :: cs =>
    if start ≥ c then some (0, endT :: cs)
    else
      match place start endT cs with
      | some (i, cs') => some (i + 1, c :: cs')
      | none => none

/-- Greedy column packing of one group, accumulating `(entry, columnIndex)`
pairs; the second component of the result is the number of columns opened. -/
def packGroupAux (cols : List Int) (acc : List (TimeEntry × Nat)) :
    List TimeEntry → List (TimeEntry × Nat) × Nat
  | [] => (acc, cols.length)
  | e :: rest =>
    match place e.startMinutes e.endMinutes cols with
    | some (i, cols') => packGroupAux cols' (acc ++ [(e, i)]) rest
    | none => packGroupAux (cols ++ [e.endMinutes]) (acc ++ [(e, cols.length)]) rest

/-- Column assignment for one group. -/
def packGroup (g : List TimeEntry) : List (TimeEntry × Nat) × Nat :=
  packGroupAux [] [] g

/-- The per-entry layout record of `computeOverlapLayout`. -/
structure LayoutInfo where
  columnIndex : Nat
  totalColumns : Nat
deriving DecidableEq, Repr

/-- `computeOverlapLayout` from `utils/overlap.ts`: sort, group, pack each
group, and record `(columnIndex, totalColumns)` per entry id. -/
def computeOverlapLayout (entries : List TimeEntry) : List (Str × LayoutInfo) :=
  ((buildGroups (sortEntries entries)).map (fun g =>
    (packGroup g).1.map (fun p => (p.1.id, LayoutInfo.mk p.2 (packGroup g).2)))).flatten

/-- `Map.get` on the layout result. -/
def layoutLookup (m : List (Str × LayoutInfo)) (i : Str) : Option LayoutInfo :=
  (m.find? (fun p => decide (p.1 = i))).map (fun p => p.2)

/-- Boolean test: entry `e`'s half-open range `[start, end)` contains `t`. -/
def containsT (t : Int) (e : TimeEntry) : Bool :=
  decide (e.startMinutes ≤ t) && decide (t < e.endMinutes)

/-- Number of entries of `g` whose half-open range `[start, end)` contains
the instant `t` (the simultaneous overlap depth at `t`). -/
def depth (g : List TimeEntry) (t : Int) : Nat :=
  (g.filter (containsT t)).length

/-- Two entries' half-open ranges share a common time point. -/
def rangesIntersect (a b : TimeEntry) : Prop :=
  ∃ t : Int, (a.startMinutes ≤ t ∧ t < a.endMinutes) ∧
    (b.startMinutes ≤ t ∧ t < b.endMinutes)

/-- The disjointness obligation for two placed entries: equal column index
forces non-intersecting ranges. -/
def sameColDisjoint (p q : TimeEntry × Nat) : Prop :=
  p.2 = q.2 → ¬ rangesIntersect p.1 q.1

/-! ## Timeline drag arithmetic (`components/Timeline.tsx`, multi-day version) -/

/-- Lookup in the `startMinutesMap` of a move session (a JS `Map` from entry
id to the entry's original `startMinutes`). -/
def lookupStart (m : List (Str × Int)) (i : Str) : Option Int :=
  (m.find? (fun p => decide (p.1 = i))).map (fun p => p.2)

/-- `applyDelta` from `handleMouseMove` in the `moving` branch: shift a
tracked entry's original start by the (snapped) delta, clamp the start into
`[DAY_START_HOUR*60, DAY_END_HOUR*60 - duration]` and the end into
`[DAY_START_HOUR*60 + duration, DAY_END_HOUR*60]`; untracked entries are
returned unchanged. -/
def applyDelta (startMap : List (Str × Int)) (deltaMinutes : Int)
    (e : TimeEntry) : TimeEntry :=
  match lookupStart startMap e.id with
  | none => e
  | some origStart =>
    let dur := e.endMinutes - e.startMinutes
    let newStart := snapToGridI (origStart + deltaMinutes)
    { e with
      startMinutes := max (DAY_START_HOUR * 60) (min (DAY_END_HOUR * 60 - dur) newStart),
      endMinutes := max (DAY_START_HOUR * 60 + dur) (min (DAY_END_HOUR * 60) (newStart + dur)) }

/-- One cross-day move tick (`handleMouseMove`, cross-day branch): the moving
entries are removed from the source bucket and the delta-shifted copies are
appended to the target bucket; the two updates are issued together. -/
def crossDayTransfer (startMap : List (Str × Int)) (deltaMinutes : Int)
    (source target : List TimeEntry) : List TimeEntry × List TimeEntry :=
  (source.filter (fun e => (lookupStart startMap e.id).isNone),
   target ++ (source.filter (fun e => (lookupStart startMap e.id).isSome)).map
     (applyDelta startMap deltaMinutes))

/-- Number of occurrences of id `i` in a day bucket. -/
def countId (i : Str) (l : List TimeEntry) : Nat :=
  (l.filter (fun e => decide (e.id = i))).length

/-- One resize tick on a single entry (`handleMouseMove`, `resizing` branch):
`top = true` drags the top edge (`startMinutes := max dayStart (min minutes (end - 15))`),
`top = false` drags the bottom edge (`endMinutes := min dayEnd (max minutes (start + 15))`). -/
def resizeEntry (top : Bool) (minutes : Int) (e : TimeEntry) : TimeEntry :=
  if top then
    { e with startMinutes := max (DAY_START_HOUR * 60) (min minutes (e.endMinutes - 15)) }
  else
    { e with endMinutes := min (DAY_END_HOUR * 60) (max minutes (e.startMinutes + 15)) }

/-- The full resize tick over a day bucket: only the grabbed entry changes. -/
def resizeTick (entryId : Str) (top : Bool) (minutes : Int)
    (entries : List TimeEntry) : List TimeEntry :=
  entries.map (fun e => if e.id = entryId then resizeEntry top minutes e else e)

/-- The commit decision of `handleMouseUp` in the `creating` state: commit
exactly when the dragged pixel span exceeds 5 and the snapped end exceeds the
snapped start; the committed times are `max dayStart startMin` and
`min dayEnd endMin`. -/
def creationRelease (startY currentY hourHeight : ℚ) : Option (Int × Int) :=
  let minY := min startY currentY
  let maxY := max startY currentY
  if maxY - minY > 5 then
    let startMin := snapToGrid (pixelsToMinutes minY hourHeight)
    let endMin := snapToGrid (pixelsToMinutes maxY hourHeight)
    if endMin > startMin then
      some (max (DAY_START_HOUR * 60) startMin, min (DAY_END_HOUR * 60) endMin)
    else none
  else none

/-- The bucket update performed by `handleMouseUp` in the `creating` state:
on commit, a new entry with default title and color is appended to the
targeted day bucket; otherwise every bucket is left unchanged. -/
def handleMouseUpCreating (days : List (List TimeEntry)) (dayIndex : Nat)
    (startY currentY hourHeight : ℚ) (newId : Str) : List (List TimeEntry) :=
  match creationRelease startY currentY hourHeight with
  | none => days
  | some (s, e) =>
    days.set dayIndex
      ((days.getD dayIndex []) ++
        [TimeEntry.mk newId "New Block".data s e "#4a9eff".data false])

/-! ## Active / next entry (`App.tsx`) -/

/-- The predicate of `todayEntries.find` in `App.tsx`: the half-open range
`[startMinutes, endMinutes)` contains the current minute. -/
def entryActiveB (now : Int) (e : TimeEntry) : Bool :=
  decide (e.startMinutes ≤ now) && decide (now < e.endMinutes)

/-- `activeEntry` from `App.tsx`. -/
def activeEntry (now : Int) (entries : List TimeEntry) : Option TimeEntry :=
  entries.find? (entryActiveB now)

/-- `nextEntry` from `App.tsx`: filter to entries starting at or after `now`
that are not the active entry (object identity in the source; entries are
distinct values in the data model), sort ascending by start (JS sort is
stable), take the first or `null`. -/
def nextEntry (now : Int) (entries : List TimeEntry) : Option TimeEntry :=
  (stableSort (fun a b => decide (a.startMinutes ≤ b.startMinutes))
    (entries.filter (fun e =>
      decide (now ≤ e.startMinutes) && decide (some e ≠ activeEntry now entries)))).head?

/-! ## Persistence codec (`utils/time.ts`, canonical region-limited version) -/

/-- `padStart(2, '0')` applied to `toString()` of a number. -/
def pad2 (n : Int) : Str :=
  let s := (toString n).data
  List.replicate (2 - s.length) '0' ++ s

/-- `formatTime24` from `utils/time.ts`: `Math.floor(total/60)` is `Int.fdiv`,
the JS `%` is `Int.tmod`. -/
def formatTime24 (totalMinutes : Int) : Str :=
  pad2 (totalMinutes.fdiv 60) ++ ":".data ++ pad2 (totalMinutes.tmod 60)

/-- The `- **Color:** ` metadata marker. -/
def colorMarker : Str := "- **Color:** ".data

/-- The `- **ID:** ` metadata marker. -/
def idMarker : Str := "- **ID:** ".data

/-- The `- **Done:** true` metadata marker. -/
def doneMarker : Str := "- **Done:** true".data

/-- The sort used by `entriesToMarkdown`: chronological by `startMinutes`
(JS sort is stable). -/
def sortByStart (entries : List TimeEntry) : List TimeEntry :=
  stableSort (fun a b => decide (a.startMinutes ≤ b.startMinutes)) entries

/-- The text block `entriesToMarkdown` emits for one entry: the sub-heading,
the color and id metadata lines, the done marker only when `done` is true,
and a blank separator line. -/
def entryBlock (e : TimeEntry) : Str :=
  "## ".data ++ formatTime24 e.startMinutes ++ " - ".data ++
    formatTime24 e.endMinutes ++ " | ".data ++ e.title ++ "\n".data ++
    colorMarker ++ e.color ++ "\n".data ++
    idMarker ++ e.id ++ "\n".data ++
    (if e.done then doneMarker ++ "\n".data else []) ++ "\n".data

/-- `entriesToMarkdown(entries, date)` from `utils/time.ts`.  The
locale-formatted date produced by `date.toLocaleDateString` is environment
input and is passed in as the string `dateStr`. -/
def entriesToMarkdown (entries : List TimeEntry) (dateStr : Str) : Str :=
  "# ".data ++ dateStr ++ "\n\n".data ++
    ((sortByStart entries).map entryBlock).flatten

/-- Split a document at `'\n'` (every document considered uses `'\n'` as its
only line terminator). -/
def splitLines : Str → List Str
  | [] => [[]]
  | c :: rest =>
    if c = '\n' then [] :: splitLines rest
    else
      match splitLines rest with
      | l :: ls => (c :: l) :: ls
      | [] => [[c]]

/-- Numeric value of a decimal digit character. -/
def digitValI (c : Char) : Int :=
  (c.toNat : Int) - 48

/-- `parseTimeStr` applied to the two captured `HH:MM` groups: each group is
exactly two decimal digits, and the value is `HH * 60 + MM` with no range
validation. -/
def timeVal (a b c d : Char) : Int :=
  (10 * digitValI a + digitValI b) * 60 + (10 * digitValI c + digitValI d)

/-- Decidable check used to establish the two-digit shape of `pad2` on the
range of hour/minute values the serializer emits. -/
def pad2Check (k : Nat) : Bool :=
  match pad2 (Int.ofNat k) with
  | [a, b] =>
    a.isDigit && b.isDigit && decide (10 * digitValI a + digitValI b = Int.ofNat k)
  | _ => false

/-- The sub-heading line the serializer emits for one entry. -/
def headingLineOf (e : TimeEntry) : Str :=
  "## ".data ++ formatTime24 e.startMinutes ++ " - ".data ++
    formatTime24 e.endMinutes ++ " | ".data ++ e.title

/-- The color metadata line the serializer emits for one entry. -/
def colorLineOf (e : TimeEntry) : Str :=
  colorMarker ++ e.color

/-- The id metadata line the serializer emits for one entry. -/
def idLineOf (e : TimeEntry) : Str :=
  idMarker ++ e.id

/-- The lines of one serialized entry block (heading, color, id, optional
done marker, blank separator). -/
def blockLines (e : TimeEntry) : List Str :=
  [headingLineOf e, colorLineOf e, idLineOf e] ++
    (if e.done then [doneMarker] else []) ++ [[]]

/-- The lines of the serialized blocks of a list of entries, with the final
empty line produced by splitting the trailing newline. -/
def docLines : List TimeEntry → List Str
  | [] => [[]]
  | e :: ls => blockLines e ++ docLines ls

/-- One line matched against the block regex
`^## (\d\x7b2\x7d:\d\x7b2\x7d) - (\d\x7b2\x7d:\d\x7b2\x7d) \| (.+)$`:
on success, the start minutes, end minutes and the greedily captured
(non-empty) title. -/
def parseHeading : Str → Option (Int × Int × Str)
  | '#' :: '#' :: ' ' :: a :: b :: ':' :: c :: d :: ' ' :: '-' :: ' ' ::
      a' :: b' :: ':' :: c' :: d' :: ' ' :: '|' :: ' ' :: t =>
    if a.isDigit && b.isDigit && c.isDigit && d.isDigit &&
        a'.isDigit && b'.isDigit && c'.isDigit && d'.isDigit && !t.isEmpty then
      some (timeVal a b c d, timeVal a' b' c' d', t)
    else none
  | _ => none

/-- Whether a line starts with `## ` — the condition that terminates a
metadata region (the source searches for the substring `"\n## "`). -/
def startsWithHH : Str → Bool
  | '#' :: '#' :: ' ' :: _ => true
  | _ => false

/-- Leftmost-match scan of a regex without anchors: try the match function at
every suffix, longest (earliest position) first. -/
def firstMatch (tryAt : Str → Option α) : Str → Option α
  | [] => tryAt []
  | c :: rest =>
    match tryAt (c :: rest) with
    | some a => some a
    | none => firstMatch tryAt rest

/-- First line of a region on which a match function succeeds. -/
def firstSome (f : Str → Option α) : List Str → Option α
  | [] => none
  | l :: rest =>
    match f l with
    | some a => some a
    | none => firstSome f rest

/-- The character class `[0-9a-fA-F]`. -/
def isHexDigitC (c : Char) : Bool :=
  c.isDigit || ('a' ≤ c && c ≤ 'f') || ('A' ≤ c && c ≤ 'F')

/-- Match `- \*\*Color:\*\* (#[0-9a-fA-F]\x7b6\x7d)` at one position: the
marker followed by `#` and six hex digits; the capture is those seven
characters. -/
def tryColorAt (s : Str) : Option Str :=
  if colorMarker.isPrefixOf s then
    match s.drop colorMarker.length with
    | '#' :: h1 :: h2 :: h3 :: h4 :: h5 :: h6 :: _ =>
      if isHexDigitC h1 && isHexDigitC h2 && isHexDigitC h3 && isHexDigitC h4 &&
          isHexDigitC h5 && isHexDigitC h6 then
        some ('#' :: h1 :: h2 :: h3 :: h4 :: h5 :: h6 :: [])
      else none
    | _ => none
  else none

/-- Match `- \*\*ID:\*\* (.+)` at one position: the marker followed by at
least one character; the greedy capture runs to the end of the line. -/
def tryIdAt (s : Str) : Option Str :=
  if idMarker.isPrefixOf s then
    match s.drop idMarker.length with
    | [] => none
    | rest => some rest
  else none

/-- Match the literal `- \*\*Done:\*\* true` at one position. -/
def tryDoneAt (s : Str) : Option Unit :=
  if doneMarker.isPrefixOf s then some () else none

/-- A line contains the done marker. -/
def hasDoneLine (l : Str) : Bool :=
  (firstMatch tryDoneAt l).isSome

/-- JS `String.prototype.trim`. -/
def trimLeft : Str → Str
  | [] => []
  | c :: rest => if c.isWhitespace then trimLeft rest else c :: rest

/-- JS `String.prototype.trim` (both ends). -/
def trimStr (s : Str) : Str :=
  trimLeft (trimLeft s.reverse).reverse

/-- The scan loop of `markdownToEntries`, line by line.  For each line that
matches the block regex, the metadata region is the text strictly before the
next line starting with `## ` (the source slices at the next `"\n## "`), the
color / id / done metadata are the leftmost matches inside that region, a
missing id is replaced by the `k`-th freshly generated id, and the scan
continues with the following lines. -/
def entriesFromLines (gen : Nat → Str) (k : Nat) : List Str → List TimeEntry
  | [] => []
  | l :: rest =>
    match parseHeading l with
    | none => entriesFromLines gen k rest
    | some (s, e, t) =>
      let region := rest.takeWhile (fun l2 => !(startsWithHH l2))
      let colorO := firstSome (firstMatch tryColorAt) region
      let idO := firstSome (firstMatch tryIdAt) region
      let doneB := region.any hasDoneLine
      TimeEntry.mk
        (match idO with | some i => trimStr i | none => gen k)
        t s e
        (match colorO with | some c => c | none => "#4a9eff".data)
        doneB ::
      entriesFromLines gen (match idO with | some _ => k | none => k + 1) rest

/-- `markdownToEntries(md)` from `utils/time.ts`, with the id generator made
explicit. -/
def markdownToEntries (gen : Nat → Str) (md : Str) : List TimeEntry :=
  entriesFromLines gen 0 (splitLines md)

/-- A fixed id generator standing in for `Date.now().toString(36) + ...` in
closed evaluations where the generated value itself is irrelevant. -/
def defaultGen : Nat → Str :=
  fun k => 'g' :: (toString k).data

/-- Characters that behave as ordinary line content for both the embedding
(`'\n'`-splitting) and the JS multiline regex (which also treats `'\r'`,
U+2028 and U+2029 as line terminators). -/
def lineSafe (c : Char) : Prop :=
  c ≠ '\n' ∧ c ≠ '\r' ∧ c ≠ '\u2028' ∧ c ≠ '\u2029'

/-- All characters of a string are ordinary line content. -/
def strSafe (s : Str) : Prop :=
  ∀ c ∈ s, lineSafe c

/-- A color of the exact shape `#` followed by six hex digits — the shape the
serializer's own output must have for the color capture to reproduce it. -/
def isHexColor : Str → Bool
  | '#' :: rest => rest.length == 6 && rest.all isHexDigitC
  | _ => false

/-- A substring occurrence check: some suffix of `s` starts with `m`. -/
def containsSub (m : Str) : Str → Bool
  | [] => m.isEmpty
  | c :: rest => m.isPrefixOf (c :: rest) || containsSub m rest

/-- Round-trippable entries: times inside one day (so the `HH:MM` fields are
two digits), a non-empty single-line title, a non-empty single-line id that
is trim-invariant and does not contain the done-marker text, and a color of
the exact `#hhhhhh` shape. -/
def wfEntry (e : TimeEntry) : Prop :=
  0 ≤ e.startMinutes ∧ e.startMinutes < 1440 ∧
  0 ≤ e.endMinutes ∧ e.endMinutes < 1440 ∧
  e.title ≠ [] ∧ strSafe e.title ∧
  e.id ≠ [] ∧ strSafe e.id ∧ trimStr e.id = e.id ∧
  containsSub doneMarker e.id = false ∧
  isHexColor e.color = true

instance (c : Char) : Decidable (lineSafe c) := by
  unfold lineSafe
  infer_instance

instance (s : Str) : Decidable (strSafe s) := by
  unfold strSafe
  infer_instance

instance (e : TimeEntry) : Decidable (wfEntry e) := by
  unfold wfEntry
  infer_instance

/-! ## Concrete instances used in scenario theorems and witnesses -/

/-- A 9:00–10:00 entry used in concrete scenarios. -/
def demoEntryA : TimeEntry :=
  TimeEntry.mk "a".data "First".data 540 600 "#4a9eff".data false

/-- A back-to-back 10:00–11:00 entry used in concrete scenarios. -/
def demoEntryB : TimeEntry :=
  TimeEntry.mk "b".data "Second".data 600 660 "#ef4444".data true

/-- Overlapping entry 9:00–10:30 for the layout scenario. -/
def demoOvA : TimeEntry :=
  TimeEntry.mk "ov1".data "OvA".data 540 630 "#4a9eff".data false

/-- Overlapping entry 9:30–11:00 for the layout scenario. -/
def demoOvB : TimeEntry :=
  TimeEntry.mk "ov2".data "OvB".data 570 660 "#4a9eff".data false

/-- A move-session start map tracking `demoEntryA`. -/
def demoMoveMap : List (Str × Int) := [("a".data, 540)]

/-- A data-model-valid entry (parsed from a hand-edited `00:00 - 00:30`
heading) whose end lies before the day window. -/
def demoShortEntry : TimeEntry :=
  TimeEntry.mk "x".data "t".data 0 30 "#4a9eff".data false

/-- An entry with an empty title — allowed by the data model ("may be
empty"), but its serialized heading does not match the block regex. -/
def demoEmptyTitle : TimeEntry :=
  TimeEntry.mk "a1".data [] 540 600 "#4a9eff".data false

/-- A date string as produced by `toLocaleDateString`. -/
def demoDate : Str := "Monday, January 15, 2024".data

/-- The metadata-bleed document from the source tests: the first heading has
no Color line, the second one does. -/
def bleedDoc : Str :=
  ("# Monday, January 15, 2024\n\n## 09:00 - 10:00 | Entry A\n- **ID:** id-a\n\n" ++
    "## 10:00 - 11:00 | Entry B\n- **Color:** #ef4444\n- **ID:** id-b\n\n").data

/-- A document whose single heading carries no metadata lines at all. -/
def noMetaDoc : Str := "# Some Day\n\n## 09:00 - 10:00 | My Task\n".data

/-- A document with out-of-range two-digit time fields. -/
def outOfRangeDoc : Str := "## 25:00 - 24:99 | x".data

/-! # Theorems -/

/-! ## C6 — moving preserves duration and clamps to the day window -/

/-- C6: for every entry in the move set (tracked in the start map) and every
pointer-move delta, `applyDelta` preserves the entry's duration exactly and,
when the duration fits in the day window, clamps the start to at least
`DAY_START_HOUR*60` and the end to at most `DAY_END_HOUR*60`. -/
theorem c6_move_preserves_duration (m : List (Str × Int)) (deltaMinutes : Int)
    (e : TimeEntry) (origStart : Int)
    (hm : lookupStart m e.id = some origStart)
    (hfit : e.endMinutes - e.startMinutes ≤ (DAY_END_HOUR - DAY_START_HOUR) * 60) :
    (applyDelta m deltaMinutes e).endMinutes - (applyDelta m deltaMinutes e).startMinutes
        = e.endMinutes - e.startMinutes ∧
    DAY_START_HOUR * 60 ≤ (applyDelta m deltaMinutes e).startMinutes ∧
    (applyDelta m deltaMinutes e).endMinutes ≤ DAY_END_HOUR * 60 := by
  simp only [applyDelta, hm, DAY_START_HOUR, DAY_END_HOUR] at *
  refine ⟨?_, ?_, ?_⟩ <;> omega

/-- Witness for C6 at a concrete move of `demoEntryA` by 30 minutes. -/
theorem c6_witness :
    (applyDelta demoMoveMap 30 demoEntryA).endMinutes
        - (applyDelta demoMoveMap 30 demoEntryA).startMinutes
        = demoEntryA.endMinutes - demoEntryA.startMinutes ∧
    DAY_START_HOUR * 60 ≤ (applyDelta demoMoveMap 30 demoEntryA).startMinutes ∧
    (applyDelta demoMoveMap 30 demoEntryA).endMinutes ≤ DAY_END_HOUR * 60 :=
  c6_move_preserves_duration demoMoveMap 30 demoEntryA 540 (by decide) (by decide)

/-! ## C7 — resize clamping -/

/-- C7 counterexample: for the data-model-valid entry `00:00 – 00:30`, one
top-edge resize tick sets `startMinutes` to the day-window start `360`,
which is greater than `endMinutes - 15 = 15` — refuting the claim that a
top-edge resize never sets `startMinutes` above `endMinutes - 15`. -/
theorem c7_resize_counterexample :
    (resizeEntry true 300 demoShortEntry).startMinutes
      > demoShortEntry.endMinutes - 15 := by decide

/-- C7 amended: a top-edge resize never moves the bottom edge, never goes
below the day-window start, and never exceeds `endMinutes - 15` provided the
entry ends at or after `DAY_START_HOUR*60 + 15`; symmetrically for the
bottom edge with `startMinutes ≤ DAY_END_HOUR*60 - 15`. -/
theorem c7_resize_clamped (e : TimeEntry) (minutes : Int) :
    (resizeEntry true minutes e).endMinutes = e.endMinutes ∧
    DAY_START_HOUR * 60 ≤ (resizeEntry true minutes e).startMinutes ∧
    (DAY_START_HOUR * 60 + 15 ≤ e.endMinutes →
      (resizeEntry true minutes e).startMinutes ≤ e.endMinutes - 15) ∧
    (resizeEntry false minutes e).startMinutes = e.startMinutes ∧
    (resizeEntry false minutes e).endMinutes ≤ DAY_END_HOUR * 60 ∧
    (e.startMinutes ≤ DAY_END_HOUR * 60 - 15 →
      e.startMinutes + 15 ≤ (resizeEntry false minutes e).endMinutes) := by
  refine ⟨?_, ?_, ?_, ?_, ?_, ?_⟩ <;>
    simp [resizeEntry, DAY_START_HOUR, DAY_END_HOUR] <;> intros <;> omega

/-- Witness for the amended C7 on `demoEntryA` (9:00–10:00). -/
theorem c7_witness :
    (resizeEntry true 30 demoEntryA).startMinutes ≤ demoEntryA.endMinutes - 15 ∧
    demoEntryA.startMinutes + 15 ≤ (resizeEntry false 30 demoEntryA).endMinutes :=
  ⟨(c7_resize_clamped demoEntryA 30).2.2.1 (by decide),
   (c7_resize_clamped demoEntryA 30).2.2.2.2.2 (by decide)⟩

/-! ## C8 — cross-day transfer neither drops nor duplicates entries -/

/-- `applyDelta` never changes an entry's id. -/
theorem applyDelta_id (m : List (Str × Int)) (dm : Int) (e : TimeEntry) :
    (applyDelta m dm e).id = e.id := by
  unfold applyDelta
  cases lookupStart m e.id <;> rfl

/-- Occurrence counts distribute over bucket concatenation. -/
theorem countId_append (i : Str) (a b : List TimeEntry) :
    countId i (a ++ b) = countId i a + countId i b := by
  simp [countId, List.filter_append]

/-- Occurrence count at a cons cell. -/
theorem countId_cons (i : Str) (e : TimeEntry) (l : List TimeEntry) :
    countId i (e :: l) = (if e.id = i then 1 else 0) + countId i l := by
  by_cases h : e.id = i <;> simp [countId, List.filter_cons, h] <;> omega

/-- Applying a move delta to every entry of a list preserves id counts. -/
theorem countId_map_applyDelta (i : Str) (m : List (Str × Int)) (dm : Int)
    (l : List TimeEntry) :
    countId i (l.map (applyDelta m dm)) = countId i l := by
  induction l with
  | nil => rfl
  | cons e t ih =>
    by_cases h : e.id = i <;>
      simp [countId, List.filter_cons, applyDelta_id, h, ih] <;>
      simpa [countId] using ih

/-- Count of id `i` among the entries the transfer keeps in the source. -/
theorem countId_filter_isNone (i : Str) (m : List (Str × Int))
    (source : List TimeEntry) :
    countId i (source.filter (fun e => (lookupStart m e.id).isNone))
      = if (lookupStart m i).isSome then 0 else countId i source := by
  induction source with
  | nil => simp [countId]
  | cons e t ih =>
    by_cases h : e.id = i
    · subst h
      cases hl : lookupStart m e.id <;>
        simp [List.filter_cons, hl, countId_cons, ih]
    · cases hl : lookupStart m e.id <;>
        simp [List.filter_cons, hl, countId_cons, h, ih]

/-- Count of id `i` among the entries the transfer moves out. -/
theorem countId_filter_isSome (i : Str) (m : List (Str × Int))
    (source : List TimeEntry) :
    countId i (source.filter (fun e => (lookupStart m e.id).isSome))
      = if (lookupStart m i).isSome then countId i source else 0 := by
  induction source with
  | nil => simp [countId]
  | cons e t ih =>
    by_cases h : e.id = i
    · subst h
      cases hl : lookupStart m e.id <;>
        simp [List.filter_cons, hl, countId_cons, ih]
    · cases hl : lookupStart m e.id <;>
        simp [List.filter_cons, hl, countId_cons, h, ih]

/-- C8: one cross-day move tick preserves, for every id, the total number of
occurrences across the source and target buckets; and when a moving id
occurs exactly once in the source and not at all in the target (the
data-model situation), after the tick it occurs zero times in the source
bucket and exactly once in the target bucket. -/
theorem c8_cross_day_transfer (m : List (Str × Int)) (dm : Int)
    (source target : List TimeEntry) (i : Str) :
    countId i (crossDayTransfer m dm source target).1
        + countId i (crossDayTransfer m dm source target).2
      = countId i source + countId i target ∧
    ((lookupStart m i).isSome = true → countId i source = 1 →
      countId i target = 0 →
      countId i (crossDayTransfer m dm source target).1 = 0 ∧
      countId i (crossDayTransfer m dm source target).2 = 1) := by
  have h1 := countId_filter_isNone i m source
  have h2 := countId_filter_isSome i m source
  constructor
  · simp only [crossDayTransfer, countId_append, countId_map_applyDelta, h1, h2]
    cases hs : (lookupStart m i).isSome <;> simp [hs] <;> omega
  · intro hs hone hzero
    simp only [crossDayTransfer, countId_append, countId_map_applyDelta, h1, h2]
    simp [hs, hone, hzero]

/-- Witness for C8: moving `demoEntryA` out of a singleton source bucket into
an empty target bucket. -/
theorem c8_witness :
    countId "a".data (crossDayTransfer demoMoveMap 15 [demoEntryA] []).1 = 0 ∧
    countId "a".data (crossDayTransfer demoMoveMap 15 [demoEntryA] []).2 = 1 :=
  (c8_cross_day_transfer demoMoveMap 15 [demoEntryA] [] "a".data).2
    (by decide) (by decide) (by decide)

/-! ## Generic facts about the stable sort -/

/-- Membership in an ordered insertion. -/
theorem mem_orderedInsert {le : α → α → Bool} {a x : α} {l : List α} :
    a ∈ orderedInsert le x l ↔ a = x ∨ a ∈ l := by
  induction l with
  | nil => simp [orderedInsert]
  | cons y t ih =>
    by_cases h : le x y <;> simp [orderedInsert, h, ih] <;> tauto

/-- Ordered insertion is a permutation of consing. -/
theorem orderedInsert_perm (le : α → α → Bool) (x : α) (l : List α) :
    (orderedInsert le x l).Perm (x :: l) := by
  induction l with
  | nil => simp [orderedInsert]
  | cons y t ih =>
    by_cases h : le x y
    · simp [orderedInsert, h]
    · simp only [orderedInsert, h, if_neg, Bool.false_eq_true, ite_false]
      exact (ih.cons y).trans (List.Perm.swap x y t)

/-- The stable sort permutes its input. -/
theorem stableSort_perm (le : α → α → Bool) (l : List α) :
    (stableSort le l).Perm l := by
  induction l with
  | nil => simp [stableSort]
  | cons x t ih => exact (orderedInsert_perm le x (stableSort le t)).trans (ih.cons x)

/-- Membership in the stable sort. -/
theorem mem_stableSort {le : α → α → Bool} {a : α} {l : List α} :
    a ∈ stableSort le l ↔ a ∈ l :=
  (stableSort_perm le l).mem_iff

/-- Ordered insertion preserves sortedness for a transitive total comparator. -/
theorem pairwise_orderedInsert (le : α → α → Bool)
    (htrans : ∀ a b c, le a b = true → le b c = true → le a c = true)
    (htotal : ∀ a b, le a b = true ∨ le b a = true)
    (x : α) (l : List α) (h : l.Pairwise (fun a b => le a b = true)) :
    (orderedInsert le x l).Pairwise (fun a b => le a b = true) := by
  induction l with
  | nil => simp [orderedInsert]
  | cons y t ih =>
    rcases List.pairwise_cons.mp h with ⟨hy, ht⟩
    by_cases hxy : le x y = true
    · simp only [orderedInsert, hxy, ite_true]
      refine List.pairwise_cons.mpr ⟨?_, h⟩
      intro z hz
      rcases List.mem_cons.mp hz with rfl | hz
      · exact hxy
      · exact htrans x y z hxy (hy z hz)
    · have hyx : le y x = true := (htotal x y).resolve_left hxy
      simp only [orderedInsert, hxy, Bool.false_eq_true, ite_false]
      refine List.pairwise_cons.mpr ⟨?_, ih ht⟩
      intro z hz
      rcases mem_orderedInsert.mp hz with rfl | hz
      · exact hyx
      · exact hy z hz

/-- The stable sort is sorted for a transitive total comparator. -/
theorem pairwise_stableSort (le : α → α → Bool)
    (htrans : ∀ a b c, le a b = true → le b c = true → le a c = true)
    (htotal : ∀ a b, le a b = true ∨ le b a = true)
    (l : List α) :
    (stableSort le l).Pairwise (fun a b => le a b = true) := by
  induction l with
  | nil => simp [stableSort]
  | cons x t ih => exact pairwise_orderedInsert le htrans htotal x (stableSort le t) ih

/-! ## C3 — creation commit conditions -/

/-- C3 counterexample: a create-drag entirely below the day window (pixel
offsets 1140 → 1155 at 60 px/hour map to minutes 1500 → 1515) passes the
pixel threshold and the `endMin > startMin` test, so a commit happens, but
the committed entry is `(1500, 1380)` with `startMinutes ≥ endMinutes` —
refuting the claimed invariant `startMinutes < endMinutes` for committed
entries. -/
theorem c3_creation_counterexample :
    creationRelease 1140 1155 60 = some (1500, 1380) ∧ ¬((1500 : Int) < 1380) := by
  constructor
  · norm_num [creationRelease, pixelsToMinutes, snapToGrid,
      DAY_START_HOUR, DAY_END_HOUR, SNAP_MINUTES]
  · decide

/-- C3 amended: on pointer release in the creating state a commit happens
iff the pixel span exceeds 5 and the snapped end exceeds the snapped start;
a committed entry satisfies `DAY_START_HOUR*60 ≤ start` and
`end ≤ DAY_END_HOUR*60`, and additionally `start < end` whenever the snapped
start is below the day-window end and the snapped end is above the
day-window start (a drag mapped entirely outside the day window on one side
can commit an inverted entry); a non-commit leaves every bucket unchanged. -/
theorem c3_creation_commit (startY currentY hourHeight : ℚ) (s e : Int) :
    ((creationRelease startY currentY hourHeight).isSome ↔
      (max startY currentY - min startY currentY > 5 ∧
        snapToGrid (pixelsToMinutes (min startY currentY) hourHeight)
          < snapToGrid (pixelsToMinutes (max startY currentY) hourHeight))) ∧
    (creationRelease startY currentY hourHeight = some (s, e) →
      DAY_START_HOUR * 60 ≤ s ∧ e ≤ DAY_END_HOUR * 60 ∧
      (snapToGrid (pixelsToMinutes (min startY currentY) hourHeight)
          < DAY_END_HOUR * 60 →
        DAY_START_HOUR * 60
          < snapToGrid (pixelsToMinutes (max startY currentY) hourHeight) →
        s < e)) ∧
    (creationRelease startY currentY hourHeight = none →
      ∀ (days : List (List TimeEntry)) (dayIndex : Nat) (newId : Str),
        handleMouseUpCreating days dayIndex startY currentY hourHeight newId = days) := by
  refine ⟨?_, ?_, ?_⟩
  · simp only [creationRelease]
    split_ifs with h5 hlt
    · simpa using ⟨h5, hlt⟩
    · simp only [Option.isSome_none, Bool.false_eq_true, false_iff]
      intro h
      exact hlt h.2
    · simp only [Option.isSome_none, Bool.false_eq_true, false_iff]
      intro h
      exact h5 h.1
  · simp only [creationRelease]
    split_ifs with h5 hlt
    · intro heq
      rw [Option.some.injEq, Prod.mk.injEq] at heq
      obtain ⟨hs, he⟩ := heq
      subst hs
      subst he
      refine ⟨le_max_left _ _, min_le_left _ _, ?_⟩
      intro h1 h2
      simp only [DAY_START_HOUR, DAY_END_HOUR] at *
      omega
    · intro heq
      cases heq
    · intro heq
      cases heq
  · intro h days dayIndex newId
    simp [handleMouseUpCreating, h]

/-- Witness for the amended C3: a drag from pixel 0 to pixel 120 at
60 px/hour commits the entry 6:00–8:00. -/
theorem c3_witness :
    DAY_START_HOUR * 60 ≤ (360 : Int) ∧ (480 : Int) ≤ DAY_END_HOUR * 60 ∧
    (360 : Int) < 480 := by
  have h := (c3_creation_commit 0 120 60 360 480).2.1 (by
    norm_num [creationRelease, pixelsToMinutes, snapToGrid,
      DAY_START_HOUR, DAY_END_HOUR, SNAP_MINUTES])
  refine ⟨h.1, h.2.1, h.2.2 ?_ ?_⟩ <;>
    norm_num [pixelsToMinutes, snapToGrid, DAY_START_HOUR, DAY_END_HOUR, SNAP_MINUTES]

/-! ## C9 — active and next entry -/

/-- C9: the active entry, when present, is an entry of the list whose
half-open range contains `now` (an entry ending exactly now is not active,
one starting exactly now is); when absent, no entry's range contains `now`.
The next entry, when present, starts at or after `now`, is not the active
entry, and has minimal start among such entries; when absent, every entry
starting at or after `now` is the active entry. -/
theorem c9_active_next (now : Int) (entries : List TimeEntry) :
    (∀ a, activeEntry now entries = some a →
      a ∈ entries ∧ a.startMinutes ≤ now ∧ now < a.endMinutes) ∧
    (activeEntry now entries = none →
      ∀ e ∈ entries, ¬(e.startMinutes ≤ now ∧ now < e.endMinutes)) ∧
    (∀ nx, nextEntry now entries = some nx →
      nx ∈ entries ∧ now ≤ nx.startMinutes ∧
      some nx ≠ activeEntry now entries ∧
      ∀ e ∈ entries, now ≤ e.startMinutes →
        some e ≠ activeEntry now entries → nx.startMinutes ≤ e.startMinutes) ∧
    (nextEntry now entries = none →
      ∀ e ∈ entries, now ≤ e.startMinutes → some e = activeEntry now entries) := by
  refine ⟨?_, ?_, ?_, ?_⟩
  · intro a ha
    refine ⟨List.mem_of_find?_eq_some ha, ?_⟩
    have hp := List.find?_some ha
    simpa [entryActiveB] using hp
  · intro h e he
    have hp := List.find?_eq_none.mp h e he
    simpa [entryActiveB] using hp
  · intro nx hnx
    unfold nextEntry at hnx
    cases hS : stableSort (fun a b => decide (a.startMinutes ≤ b.startMinutes))
        (entries.filter (fun e =>
          decide (now ≤ e.startMinutes) &&
            decide (some e ≠ activeEntry now entries))) with
    | nil => rw [hS] at hnx; cases hnx
    | cons b t =>
      rw [hS] at hnx
      have hbnx : b = nx := by simpa using hnx
      subst hbnx
      have hmem : b ∈ entries.filter (fun e =>
          decide (now ≤ e.startMinutes) &&
            decide (some e ≠ activeEntry now entries)) := by
        have : b ∈ b :: t := List.mem_cons_self b t
        rw [← hS] at this
        exact mem_stableSort.mp this
      have hmem' := List.mem_filter.mp hmem
      have hcond : now ≤ b.startMinutes ∧ some b ≠ activeEntry now entries := by
        simpa using hmem'.2
      refine ⟨hmem'.1, hcond.1, hcond.2, ?_⟩
      intro e he hle hne
      have heF : e ∈ entries.filter (fun e =>
          decide (now ≤ e.startMinutes) &&
            decide (some e ≠ activeEntry now entries)) :=
        List.mem_filter.mpr ⟨he, by simpa using ⟨hle, hne⟩⟩
      have heS : e ∈ b :: t := by
        rw [← hS]
        exact mem_stableSort.mpr heF
      rcases List.mem_cons.mp heS with rfl | heT
      · exact le_refl _
      · have hsorted := pairwise_stableSort
          (fun a b => decide (a.startMinutes ≤ b.startMinutes))
          (by intro a b c h1 h2; simp at *; omega)
          (by intro a b; simp; omega)
          (entries.filter (fun e =>
            decide (now ≤ e.startMinutes) &&
              decide (some e ≠ activeEntry now entries)))
        rw [hS] at hsorted
        have := (List.pairwise_cons.mp hsorted).1 e heT
        simpa using this
  · intro h e he hle
    unfold nextEntry at h
    rw [List.head?_eq_none_iff] at h
    by_contra hne
    have heF : e ∈ entries.filter (fun e =>
        decide (now ≤ e.startMinutes) &&
          decide (some e ≠ activeEntry now entries)) :=
      List.mem_filter.mpr ⟨he, by simpa using ⟨hle, hne⟩⟩
    have : e ∈ (stableSort (fun a b => decide (a.startMinutes ≤ b.startMinutes))
        (entries.filter (fun e =>
          decide (now ≤ e.startMinutes) &&
            decide (some e ≠ activeEntry now entries)))) :=
      mem_stableSort.mpr heF
    rw [h] at this
    cases this

/-- Witness for C9 at 9:05 with the 9:00–10:00 and 10:00–11:00 entries:
the first is active, the second is next. -/
theorem c9_witness :
    (demoEntryA ∈ [demoEntryA, demoEntryB] ∧
      demoEntryA.startMinutes ≤ 545 ∧ 545 < demoEntryA.endMinutes) ∧
    (demoEntryB ∈ [demoEntryA, demoEntryB] ∧ 545 ≤ demoEntryB.startMinutes ∧
      some demoEntryB ≠ activeEntry 545 [demoEntryA, demoEntryB] ∧
      ∀ e ∈ [demoEntryA, demoEntryB], 545 ≤ e.startMinutes →
        some e ≠ activeEntry 545 [demoEntryA, demoEntryB] →
          demoEntryB.startMinutes ≤ e.startMinutes) :=
  ⟨(c9_active_next 545 [demoEntryA, demoEntryB]).1 demoEntryA (by decide),
   (c9_active_next 545 [demoEntryA, demoEntryB]).2.2.1 demoEntryB (by decide)⟩

/-! ## C2 / C4 — overlap layout correctness -/

/-- `getD` after `set` at the same index. -/
theorem getD_set_self (l : List Int) (i : Nat) (v : Int) (h : i < l.length) :
    (l.set i v).getD i 0 = v := by
  rw [List.getD_eq_getElem _ _ (by simpa using h)]
  exact List.getElem_set_self (by simpa using h)

/-- `getD` after `set` at a different index. -/
theorem getD_set_ne (l : List Int) (i j : Nat) (v : Int) (h : i ≠ j)
    (hj : j < l.length) : (l.set i v).getD j 0 = l.getD j 0 := by
  rw [List.getD_eq_getElem _ _ (by simpa using hj),
    List.getD_eq_getElem _ _ hj]
  exact List.getElem_set_ne h _

/-- `getD` on the left part of an appended list. -/
theorem getD_append_left (l l' : List Int) (j : Nat) (hj : j < l.length) :
    (l ++ l').getD j 0 = l.getD j 0 := by
  rw [List.getD_eq_getElem _ _ (by simp; omega),
    List.getD_eq_getElem _ _ hj]
  exact List.getElem_append_left hj

/-- `getD` at the length of the left part of a concatenation. -/
theorem getD_concat_length (l : List Int) (v : Int) :
    (l ++ [v]).getD l.length 0 = v := by
  rw [List.getD_eq_getElem _ _ (by simp)]
  simp

/-- Unfolding `place` when the head column accepts the entry. -/
theorem place_cons_ge (s endT c : Int) (cs : List Int) (h : s ≥ c) :
    place s endT (c :: cs) = some (0, endT :: cs) := by
  simp only [place, h, ite_true, if_true]

/-- Unfolding `place` when the head column rejects and the tail accepts. -/
theorem place_cons_lt_some (s endT c : Int) (cs : List Int) (j : Nat)
    (cs2 : List Int) (h : ¬ s ≥ c) (hp : place s endT cs = some (j, cs2)) :
    place s endT (c :: cs) = some (j + 1, c :: cs2) := by
  simp only [place, h, ite_false, if_false, hp]

/-- Unfolding `place` when no column accepts. -/
theorem place_cons_lt_none (s endT c : Int) (cs : List Int) (h : ¬ s ≥ c)
    (hp : place s endT cs = none) :
    place s endT (c :: cs) = none := by
  simp only [place, h, ite_false, if_false, hp]

/-- `place` fails exactly when every column end exceeds the start. -/
theorem place_none_iff (s endT : Int) (cols : List Int) :
    place s endT cols = none ↔ ∀ c ∈ cols, s < c := by
  induction cols with
  | nil => simp [place]
  | cons c cs ih =>
    by_cases h : s ≥ c
    · rw [place_cons_ge s endT c cs h]
      constructor
      · intro hx; cases hx
      · intro hall
        exact absurd (hall c (List.mem_cons_self c cs)) (by omega)
    · cases hp : place s endT cs with
      | none =>
        rw [place_cons_lt_none s endT c cs h hp]
        constructor
        · intro _ x hx
          rcases List.mem_cons.mp hx with rfl | hx
          · omega
          · exact (ih.mp hp) x hx
        · intro _; rfl
      | some p =>
        rw [place_cons_lt_some s endT c cs p.1 p.2 h (by simpa using hp)]
        constructor
        · intro hx; cases hx
        · intro hall
          have hnone : place s endT cs = none :=
            ih.mpr (fun x hx => hall x (List.mem_cons_of_mem c hx))
          rw [hp] at hnone
          cases hnone

/-- `place` succeeds onto a column whose end is at most the start, and the
updated column list is a `set` at that index. -/
theorem place_some_spec (s endT : Int) (cols : List Int) (i : Nat)
    (cols' : List Int) (h : place s endT cols = some (i, cols')) :
    i < cols.length ∧ cols.getD i 0 ≤ s ∧ cols' = cols.set i endT := by
  induction cols generalizing i cols' with
  | nil => cases h
  | cons c cs ih =>
    by_cases hge : s ≥ c
    · rw [place_cons_ge s endT c cs hge] at h
      rw [Option.some.injEq, Prod.mk.injEq] at h
      obtain ⟨rfl, rfl⟩ := h
      refine ⟨by simp, by simpa using hge, rfl⟩
    · cases hp : place s endT cs with
      | none =>
        rw [place_cons_lt_none s endT c cs hge hp] at h
        cases h
      | some p =>
        rw [place_cons_lt_some s endT c cs p.1 p.2 hge (by simpa using hp)] at h
        rw [Option.some.injEq, Prod.mk.injEq] at h
        obtain ⟨rfl, rfl⟩ := h
        obtain ⟨h1, h2, h3⟩ := ih p.1 p.2 (by simpa using hp)
        refine ⟨by simpa using h1, by simpa using h2, by simp [h3]⟩

/-- The groups produced by the sweep flatten back to the sweep's input. -/
theorem buildGroupsAux_flatten (cur : List TimeEntry) (gEnd : Int)
    (rest : List TimeEntry) :
    (buildGroupsAux cur gEnd rest).flatten = cur ++ rest := by
  induction rest generalizing cur gEnd with
  | nil => simp [buildGroupsAux]
  | cons e t ih =>
    by_cases h : e.startMinutes < gEnd <;>
      simp [buildGroupsAux, h, ih]

/-- The groups flatten back to the sorted list. -/
theorem buildGroups_flatten (l : List TimeEntry) :
    (buildGroups l).flatten = l := by
  cases l with
  | nil => rfl
  | cons e t => simpa using buildGroupsAux_flatten [e] e.endMinutes t

/-- A pairwise property of the sweep input holds inside every group. -/
theorem buildGroupsAux_pairwise {r : TimeEntry → TimeEntry → Prop}
    (cur : List TimeEntry) (gEnd : Int) (rest : List TimeEntry)
    (h : (cur ++ rest).Pairwise r) :
    ∀ g ∈ buildGroupsAux cur gEnd rest, g.Pairwise r := by
  induction rest generalizing cur gEnd with
  | nil =>
    intro g hg
    simp only [buildGroupsAux, List.mem_singleton] at hg
    subst hg
    simpa using h
  | cons e t ih =>
    intro g hg
    by_cases hc : e.startMinutes < gEnd
    · rw [buildGroupsAux, if_pos hc] at hg
      refine ih (cur ++ [e]) (max gEnd e.endMinutes) ?_ g hg
      rwa [List.append_assoc, List.singleton_append]
    · rw [buildGroupsAux, if_neg hc] at hg
      rcases List.mem_cons.mp hg with rfl | hg
      · exact (List.pairwise_append.mp h).1
      · exact ih [e] e.endMinutes (by simpa using (List.pairwise_append.mp h).2.1) g hg

/-- Every member of a group is a member of the sweep input. -/
theorem mem_of_mem_buildGroups {l : List TimeEntry} {g : List TimeEntry}
    {e : TimeEntry} (hg : g ∈ buildGroups l) (he : e ∈ g) : e ∈ l := by
  rw [← buildGroups_flatten l]
  exact List.mem_flatten.mpr ⟨g, hg, he⟩

/-- Invariant induction for the greedy column packer.  Starting from a
consistent intermediate state (columns record the end of the last entry
placed in them, every placed entry ends by its column's recorded end, every
column has a representative last entry, placed entries start no later than
pending ones, placed entries in one column are disjoint, and some instant is
covered by one entry of every column), the packer returns an assignment
whose entries are the placed plus pending ones, with all column indices
below the final column count, pairwise disjoint within a column, and with
some instant covered by one entry of every final column. -/
theorem packGroupAux_spec (todo : List TimeEntry) :
    ∀ (cols : List Int) (acc : List (TimeEntry × Nat)),
    todo.Pairwise (fun a b => a.startMinutes ≤ b.startMinutes) →
    (∀ f ∈ todo, f.startMinutes < f.endMinutes) →
    (∀ p ∈ acc, p.2 < cols.length) →
    (∀ p ∈ acc, p.1.endMinutes ≤ cols.getD p.2 0) →
    (∀ i, i < cols.length → ∃ p ∈ acc, p.2 = i ∧ p.1.endMinutes = cols.getD i 0) →
    (∀ p ∈ acc, ∀ f ∈ todo, p.1.startMinutes ≤ f.startMinutes) →
    acc.Pairwise sameColDisjoint →
    (∃ t : Int, Finset.range cols.length ⊆
        ((acc.filter (fun p => containsT t p.1)).map Prod.snd).toFinset) →
    ((packGroupAux cols acc todo).1.map Prod.fst = acc.map Prod.fst ++ todo) ∧
    (∀ p ∈ (packGroupAux cols acc todo).1, p.2 < (packGroupAux cols acc todo).2) ∧
    ((packGroupAux cols acc todo).1.Pairwise sameColDisjoint) ∧
    (∃ t : Int, Finset.range (packGroupAux cols acc todo).2 ⊆
        (((packGroupAux cols acc todo).1.filter (fun p => containsT t p.1)).map
          Prod.snd).toFinset) := by
  induction todo with
  | nil =>
    intro cols acc _ _ hB _ _ _ hF hH
    simp only [packGroupAux]
    exact ⟨by simp, hB, hF, hH⟩
  | cons e rest ih =>
    intro cols acc hst hv hB hC hD hE hF hH
    have hst' := (List.pairwise_cons.mp hst).2
    have hstE := (List.pairwise_cons.mp hst).1
    have hv' : ∀ f ∈ rest, f.startMinutes < f.endMinutes :=
      fun f hf => hv f (List.mem_cons_of_mem e hf)
    have hvE : e.startMinutes < e.endMinutes := hv e (List.mem_cons_self e rest)
    cases hp : place e.startMinutes e.endMinutes cols with
    | some pr =>
      obtain ⟨i, cols'⟩ := pr
      obtain ⟨hi, hcol, hset⟩ := place_some_spec _ _ _ _ _ hp
      subst hset
      have heq : packGroupAux cols acc (e :: rest)
          = packGroupAux (cols.set i e.endMinutes) (acc ++ [(e, i)]) rest := by
        simp only [packGroupAux, hp]
      have hB' : ∀ p ∈ acc ++ [(e, i)], p.2 < (cols.set i e.endMinutes).length := by
        intro p hpm
        rw [List.length_set]
        rcases List.mem_append.mp hpm with hpm | hpm
        · exact hB p hpm
        · obtain rfl := List.mem_singleton.mp hpm
          exact hi
      have hC' : ∀ p ∈ acc ++ [(e, i)],
          p.1.endMinutes ≤ (cols.set i e.endMinutes).getD p.2 0 := by
        intro p hpm
        rcases List.mem_append.mp hpm with hpm | hpm
        · by_cases hpi : p.2 = i
          · rw [hpi, getD_set_self _ _ _ hi]
            have h2 := hC p hpm
            rw [hpi] at h2
            omega
          · rw [getD_set_ne _ _ _ _ (fun hh => hpi hh.symm) (hB p hpm)]
            exact hC p hpm
        · obtain rfl := List.mem_singleton.mp hpm
          rw [getD_set_self _ _ _ hi]
      have hD' : ∀ j, j < (cols.set i e.endMinutes).length →
          ∃ p ∈ acc ++ [(e, i)], p.2 = j ∧
            p.1.endMinutes = (cols.set i e.endMinutes).getD j 0 := by
        intro j hj
        rw [List.length_set] at hj
        by_cases hji : j = i
        · subst hji
          exact ⟨(e, j), List.mem_append_right _ (List.mem_singleton_self _), rfl,
            (getD_set_self _ _ _ hi).symm⟩
        · obtain ⟨p, hpm, hpj, hpe⟩ := hD j hj
          refine ⟨p, List.mem_append_left _ hpm, hpj, ?_⟩
          rw [getD_set_ne _ _ _ _ (fun hh => hji hh.symm) hj]
          exact hpe
      have hE' : ∀ p ∈ acc ++ [(e, i)], ∀ f ∈ rest,
          p.1.startMinutes ≤ f.startMinutes := by
        intro p hpm f hf
        rcases List.mem_append.mp hpm with hpm | hpm
        · exact hE p hpm f (List.mem_cons_of_mem e hf)
        · obtain rfl := List.mem_singleton.mp hpm
          exact hstE f hf
      have hF' : (acc ++ [(e, i)]).Pairwise sameColDisjoint := by
        rw [List.pairwise_append]
        refine ⟨hF, List.pairwise_singleton _ _, ?_⟩
        intro p hpm q hq
        obtain rfl := List.mem_singleton.mp hq
        intro hcoleq hint
        obtain ⟨t, ⟨hpt1, hpt2⟩, ⟨het1, het2⟩⟩ := hint
        have hci : p.2 = i := hcoleq
        have het1' : e.startMinutes ≤ t := het1
        have h2 := hC p hpm
        rw [hci] at h2
        omega
      have hH' : ∃ t, Finset.range (cols.set i e.endMinutes).length ⊆
          (((acc ++ [(e, i)]).filter (fun p => containsT t p.1)).map
            Prod.snd).toFinset := by
        obtain ⟨t, ht⟩ := hH
        refine ⟨t, ?_⟩
        rw [List.length_set]
        intro x hx
        rw [List.filter_append, List.map_append, List.toFinset_append]
        exact Finset.mem_union_left _ (ht hx)
      obtain ⟨ih1, ih2, ih3, ih4⟩ :=
        ih (cols.set i e.endMinutes) (acc ++ [(e, i)]) hst' hv' hB' hC' hD' hE' hF' hH'
      rw [heq]
      refine ⟨?_, ih2, ih3, ih4⟩
      rw [ih1]
      simp
    | none =>
      have hall := (place_none_iff _ _ _).mp hp
      have heq : packGroupAux cols acc (e :: rest)
          = packGroupAux (cols ++ [e.endMinutes]) (acc ++ [(e, cols.length)]) rest := by
        simp only [packGroupAux, hp]
      have hB' : ∀ p ∈ acc ++ [(e, cols.length)],
          p.2 < (cols ++ [e.endMinutes]).length := by
        intro p hpm
        rw [List.length_append, List.length_singleton]
        rcases List.mem_append.mp hpm with hpm | hpm
        · have := hB p hpm
          omega
        · obtain rfl := List.mem_singleton.mp hpm
          omega
      have hC' : ∀ p ∈ acc ++ [(e, cols.length)],
          p.1.endMinutes ≤ (cols ++ [e.endMinutes]).getD p.2 0 := by
        intro p hpm
        rcases List.mem_append.mp hpm with hpm | hpm
        · rw [getD_append_left _ _ _ (hB p hpm)]
          exact hC p hpm
        · obtain rfl := List.mem_singleton.mp hpm
          rw [getD_concat_length]
      have hD' : ∀ j, j < (cols ++ [e.endMinutes]).length →
          ∃ p ∈ acc ++ [(e, cols.length)], p.2 = j ∧
            p.1.endMinutes = (cols ++ [e.endMinutes]).getD j 0 := by
        intro j hj
        rw [List.length_append, List.length_singleton] at hj
        by_cases hji : j = cols.length
        · subst hji
          exact ⟨(e, cols.length), List.mem_append_right _ (List.mem_singleton_self _),
            rfl, (getD_concat_length _ _).symm⟩
        · have hjlt : j < cols.length := by omega
          obtain ⟨p, hpm, hpj, hpe⟩ := hD j hjlt
          refine ⟨p, List.mem_append_left _ hpm, hpj, ?_⟩
          rw [getD_append_left _ _ _ hjlt]
          exact hpe
      have hE' : ∀ p ∈ acc ++ [(e, cols.length)], ∀ f ∈ rest,
          p.1.startMinutes ≤ f.startMinutes := by
        intro p hpm f hf
        rcases List.mem_append.mp hpm with hpm | hpm
        · exact hE p hpm f (List.mem_cons_of_mem e hf)
        · obtain rfl := List.mem_singleton.mp hpm
          exact hstE f hf
      have hF' : (acc ++ [(e, cols.length)]).Pairwise sameColDisjoint := by
        rw [List.pairwise_append]
        refine ⟨hF, List.pairwise_singleton _ _, ?_⟩
        intro p hpm q hq
        obtain rfl := List.mem_singleton.mp hq
        intro hcoleq
        have := hB p hpm
        rw [hcoleq] at this
        exact absurd this (lt_irrefl _)
      have hH' : ∃ t, Finset.range (cols ++ [e.endMinutes]).length ⊆
          (((acc ++ [(e, cols.length)]).filter (fun p => containsT t p.1)).map
            Prod.snd).toFinset := by
        refine ⟨e.startMinutes, ?_⟩
        rw [List.length_append, List.length_singleton]
        intro x hx
        rw [Finset.mem_range] at hx
        rw [List.filter_append, List.map_append, List.toFinset_append, Finset.mem_union]
        by_cases hxl : x < cols.length
        · left
          obtain ⟨p, hpm, hpj, hpe⟩ := hD x hxl
          have hpcontains : containsT e.startMinutes p.1 = true := by
            simp only [containsT, Bool.and_eq_true, decide_eq_true_eq]
            refine ⟨hE p hpm e (List.mem_cons_self e rest), ?_⟩
            rw [hpe]
            have hmem : cols.getD x 0 ∈ cols := by
              rw [List.getD_eq_getElem _ _ hxl]
              exact List.getElem_mem _
            exact hall _ hmem
          rw [List.mem_toFinset]
          refine List.mem_map.mpr ⟨p, List.mem_filter.mpr ⟨hpm, hpcontains⟩, hpj⟩
        · right
          have hxe : x = cols.length := by omega
          subst hxe
          rw [List.mem_toFinset]
          refine List.mem_map.mpr ⟨(e, cols.length), List.mem_filter.mpr
            ⟨List.mem_singleton_self _, ?_⟩, rfl⟩
          simp only [containsT, Bool.and_eq_true, decide_eq_true_eq]
          exact ⟨le_refl _, hvE⟩
      obtain ⟨ih1, ih2, ih3, ih4⟩ :=
        ih (cols ++ [e.endMinutes]) (acc ++ [(e, cols.length)]) hst' hv' hB' hC' hD' hE' hF' hH'
      rw [heq]
      refine ⟨?_, ih2, ih3, ih4⟩
      rw [ih1]
      simp

/-- Packing specification for one group starting from the empty state. -/
theorem packGroup_spec (g : List TimeEntry)
    (hst : g.Pairwise (fun a b => a.startMinutes ≤ b.startMinutes))
    (hv : ∀ f ∈ g, f.startMinutes < f.endMinutes) :
    ((packGroup g).1.map Prod.fst = g) ∧
    (∀ p ∈ (packGroup g).1, p.2 < (packGroup g).2) ∧
    ((packGroup g).1.Pairwise sameColDisjoint) ∧
    (∃ t : Int, Finset.range (packGroup g).2 ⊆
        (((packGroup g).1.filter (fun p => containsT t p.1)).map Prod.snd).toFinset) := by
  have h := packGroupAux_spec g [] []
    hst hv (by simp) (by simp) (by simp) (by simp) (by simp) ⟨0, by simp⟩
  simpa [packGroup] using h

/-- The overlap depth of a group equals the length of the filtered
assignment list. -/
theorem depth_eq_pack_filter (g : List TimeEntry)
    (h1 : (packGroup g).1.map Prod.fst = g) (t : Int) :
    depth g t = ((packGroup g).1.filter (fun p => containsT t p.1)).length := by
  simp only [depth]
  conv_lhs => rw [← h1]
  rw [List.filter_map, List.length_map]
  rfl

/-- A duplicate-free list of naturals bounded by `n` has at most `n`
elements. -/
theorem length_le_of_nodup_lt (l : List Nat) (n : Nat) (hnd : l.Nodup)
    (hb : ∀ x ∈ l, x < n) : l.length ≤ n := by
  have hsub : l.toFinset ⊆ Finset.range n :=
    fun x hx => Finset.mem_range.mpr (hb x (List.mem_toFinset.mp hx))
  have hc := Finset.card_le_card hsub
  rw [Finset.card_range, List.toFinset_card_of_nodup hnd] at hc
  exact hc

/-- No instant is covered by more entries of a group than the packer opened
columns. -/
theorem depth_le_packGroup (g : List TimeEntry)
    (hst : g.Pairwise (fun a b => a.startMinutes ≤ b.startMinutes))
    (hv : ∀ f ∈ g, f.startMinutes < f.endMinutes) (t : Int) :
    depth g t ≤ (packGroup g).2 := by
  obtain ⟨h1, h2, h3, _⟩ := packGroup_spec g hst hv
  rw [depth_eq_pack_filter g h1 t]
  have hpairF : ((packGroup g).1.filter (fun p => containsT t p.1)).Pairwise
      (fun p q => p.2 ≠ q.2) := by
    have hstep : ((packGroup g).1.filter (fun p => containsT t p.1)).Pairwise
        sameColDisjoint :=
      List.Pairwise.sublist (List.filter_sublist _) h3
    refine List.Pairwise.imp_of_mem ?_ hstep
    intro p q hpm hqm hpq hpq2
    have hp := (List.mem_filter.mp hpm).2
    have hq := (List.mem_filter.mp hqm).2
    simp only [containsT, Bool.and_eq_true, decide_eq_true_eq] at hp hq
    exact hpq hpq2 ⟨t, hp, hq⟩
  have hnd : (((packGroup g).1.filter (fun p => containsT t p.1)).map Prod.snd).Nodup :=
    List.Pairwise.map Prod.snd (fun {a b} h => h) hpairF
  have hbound : ∀ x ∈ ((packGroup g).1.filter (fun p => containsT t p.1)).map Prod.snd,
      x < (packGroup g).2 := by
    intro x hx
    obtain ⟨p, hpF, rfl⟩ := List.mem_map.mp hx
    exact h2 p (List.mem_of_mem_filter hpF)
  have := length_le_of_nodup_lt _ _ hnd hbound
  rwa [List.length_map] at this
/-- Some instant is covered by exactly as many entries of the group as the
packer opened columns. -/
theorem exists_depth_eq_packGroup (g : List TimeEntry)
    (hst : g.Pairwise (fun a b => a.startMinutes ≤ b.startMinutes))
    (hv : ∀ f ∈ g, f.startMinutes < f.endMinutes) :
    ∃ t : Int, depth g t = (packGroup g).2 := by
  obtain ⟨h1, _, _, h4⟩ := packGroup_spec g hst hv
  obtain ⟨t, ht⟩ := h4
  refine ⟨t, le_antisymm (depth_le_packGroup g hst hv t) ?_⟩
  have hc := Finset.card_le_card ht
  rw [Finset.card_range] at hc
  have hle := List.toFinset_card_le
    (((packGroup g).1.filter (fun p => containsT t p.1)).map Prod.snd)
  rw [depth_eq_pack_filter g h1 t]
  rw [List.length_map] at hle
  omega

/-- A pairwise property of the input holds inside every group. -/
theorem buildGroups_pairwise {r : TimeEntry → TimeEntry → Prop}
    (l : List TimeEntry) (h : l.Pairwise r) :
    ∀ g ∈ buildGroups l, g.Pairwise r := by
  cases l with
  | nil => intro g hg; cases hg
  | cons e t =>
    intro g hg
    exact buildGroupsAux_pairwise [e] e.endMinutes t (by simpa using h) g hg

/-- The comparator of `computeOverlapLayout` is transitive. -/
theorem overlapLe_trans (a b c : TimeEntry) (h1 : overlapLe a b = true)
    (h2 : overlapLe b c = true) : overlapLe a c = true := by
  simp only [overlapLe, Bool.or_eq_true, Bool.and_eq_true, decide_eq_true_eq] at *
  omega

/-- The comparator of `computeOverlapLayout` is total. -/
theorem overlapLe_total (a b : TimeEntry) :
    overlapLe a b = true ∨ overlapLe b a = true := by
  simp only [overlapLe, Bool.or_eq_true, Bool.and_eq_true, decide_eq_true_eq]
  omega

/-- `find?` on an association list with duplicate-free keys returns the
unique pair carrying the key. -/
theorem find?_key_of_nodup (l : List (Str × LayoutInfo)) (k : Str)
    (v : LayoutInfo) (hnd : (l.map Prod.fst).Nodup) (hmem : (k, v) ∈ l) :
    l.find? (fun p => decide (p.1 = k)) = some (k, v) := by
  induction l with
  | nil => cases hmem
  | cons q t ihl =>
    have hnd' : q.1 ∉ t.map Prod.fst ∧ (t.map Prod.fst).Nodup := by
      rw [List.map_cons, List.nodup_cons] at hnd
      exact hnd
    rcases List.mem_cons.mp hmem with rfl | hmem'
    · exact List.find?_cons_of_pos t (by simp)
    · have hq : q.1 ≠ k := by
        intro hqk
        have hk : k ∈ t.map Prod.fst := List.mem_map.mpr ⟨(k, v), hmem', rfl⟩
        rw [← hqk] at hk
        exact hnd'.1 hk
      rw [List.find?_cons_of_neg t (by simp [hq])]
      exact ihl hnd'.2 hmem'

/-- The keys of the layout map are the ids of the sorted entry list. -/
theorem computeOverlapLayout_keys (entries : List TimeEntry)
    (hv : ∀ e ∈ entries, e.startMinutes < e.endMinutes) :
    (computeOverlapLayout entries).map Prod.fst
      = (sortEntries entries).map TimeEntry.id := by
  have hsorted : (sortEntries entries).Pairwise (fun a b => overlapLe a b = true) :=
    pairwise_stableSort overlapLe overlapLe_trans overlapLe_total entries
  have hstart : (sortEntries entries).Pairwise
      (fun a b => a.startMinutes ≤ b.startMinutes) := by
    refine hsorted.imp ?_
    intro a b hab
    simp only [overlapLe, Bool.or_eq_true, Bool.and_eq_true, decide_eq_true_eq] at hab
    omega
  simp only [computeOverlapLayout]
  rw [List.map_flatten, List.map_map]
  have hblocks : ∀ g ∈ buildGroups (sortEntries entries),
      ((List.map Prod.fst) ∘ (fun g => (packGroup g).1.map
        (fun p => (p.1.id, LayoutInfo.mk p.2 (packGroup g).2)))) g
        = g.map TimeEntry.id := by
    intro g hg
    have hgst := buildGroups_pairwise (sortEntries entries) hstart g hg
    have hgv : ∀ f ∈ g, f.startMinutes < f.endMinutes := by
      intro f hf
      exact hv f (mem_stableSort.mp (mem_of_mem_buildGroups hg hf))
    obtain ⟨h1, _, _, _⟩ := packGroup_spec g hgst hgv
    conv_rhs => rw [← h1]
    simp [List.map_map, Function.comp]
  rw [List.map_congr_left hblocks]
  rw [← List.map_flatten, buildGroups_flatten]

/-- C2: for every entry list valid in the data model (positive durations,
unique ids), within every overlap group no two entries sharing a column
index have intersecting half-open ranges, the group's column count bounds
the overlap depth at every instant and is attained at some instant, and
`computeOverlapLayout` records exactly the packed `columnIndex` with the
group's column count as `totalColumns` for every entry of the group. -/
theorem c2_overlap_layout (entries : List TimeEntry)
    (hv : ∀ e ∈ entries, e.startMinutes < e.endMinutes)
    (hids : (entries.map TimeEntry.id).Nodup) :
    ∀ g ∈ buildGroups (sortEntries entries),
      ((packGroup g).1.Pairwise sameColDisjoint) ∧
      (∀ t : Int, depth g t ≤ (packGroup g).2) ∧
      (∃ t : Int, depth g t = (packGroup g).2) ∧
      (∀ p ∈ (packGroup g).1,
        layoutLookup (computeOverlapLayout entries) p.1.id
          = some (LayoutInfo.mk p.2 (packGroup g).2)) := by
  intro g hg
  have hsorted : (sortEntries entries).Pairwise (fun a b => overlapLe a b = true) :=
    pairwise_stableSort overlapLe overlapLe_trans overlapLe_total entries
  have hstart : (sortEntries entries).Pairwise
      (fun a b => a.startMinutes ≤ b.startMinutes) := by
    refine hsorted.imp ?_
    intro a b hab
    simp only [overlapLe, Bool.or_eq_true, Bool.and_eq_true, decide_eq_true_eq] at hab
    omega
  have hgst := buildGroups_pairwise (sortEntries entries) hstart g hg
  have hgv : ∀ f ∈ g, f.startMinutes < f.endMinutes := by
    intro f hf
    exact hv f (mem_stableSort.mp (mem_of_mem_buildGroups hg hf))
  obtain ⟨h1, h2, h3, h4⟩ := packGroup_spec g hgst hgv
  refine ⟨h3, fun t => depth_le_packGroup g hgst hgv t,
    exists_depth_eq_packGroup g hgst hgv, ?_⟩
  intro p hp
  have hnodupkeys : ((computeOverlapLayout entries).map Prod.fst).Nodup := by
    rw [computeOverlapLayout_keys entries hv]
    have hperm := (stableSort_perm overlapLe entries).map TimeEntry.id
    exact (List.Perm.nodup_iff hperm).mpr hids
  have hm : (p.1.id, LayoutInfo.mk p.2 (packGroup g).2) ∈ computeOverlapLayout entries := by
    simp only [computeOverlapLayout]
    rw [List.mem_flatten]
    refine ⟨(packGroup g).1.map (fun q => (q.1.id, LayoutInfo.mk q.2 (packGroup g).2)),
      List.mem_map.mpr ⟨g, hg, rfl⟩, List.mem_map.mpr ⟨p, hp, rfl⟩⟩
  rw [layoutLookup, find?_key_of_nodup _ _ _ hnodupkeys hm]
  rfl

/-- Witness for C2 on the overlapping pair 9:00–10:30 / 9:30–11:00 forming
one group: same-column disjointness holds and the depth bound is attained. -/
theorem c2_witness :
    ((packGroup [demoOvA, demoOvB]).1.Pairwise sameColDisjoint) ∧
    (∃ t : Int, depth [demoOvA, demoOvB] t = (packGroup [demoOvA, demoOvB]).2) ∧
    layoutLookup (computeOverlapLayout [demoOvA, demoOvB]) demoOvA.id
      = some (LayoutInfo.mk 0 2) ∧
    layoutLookup (computeOverlapLayout [demoOvA, demoOvB]) demoOvB.id
      = some (LayoutInfo.mk 1 2) := by
  have h := c2_overlap_layout [demoOvA, demoOvB] (by decide) (by decide)
    [demoOvA, demoOvB] (by decide)
  exact ⟨h.1, h.2.2.1, h.2.2.2 (demoOvA, 0) (by decide), h.2.2.2 (demoOvB, 1) (by decide)⟩

/-- C4: in the sweep an entry starts a new group exactly when its start is at
least the running maximum end of the current group (so touching is not
overlap), and the back-to-back entries 9:00–10:00 and 10:00–11:00 land in
two separate groups, each a single column wide. -/
theorem c4_group_boundary :
    (∀ (cur : List TimeEntry) (gEnd : Int) (e : TimeEntry) (rest : List TimeEntry),
      gEnd ≤ e.startMinutes →
        buildGroupsAux cur gEnd (e :: rest)
          = cur :: buildGroupsAux [e] e.endMinutes rest) ∧
    (∀ (cur : List TimeEntry) (gEnd : Int) (e : TimeEntry) (rest : List TimeEntry),
      e.startMinutes < gEnd →
        buildGroupsAux cur gEnd (e :: rest)
          = buildGroupsAux (cur ++ [e]) (max gEnd e.endMinutes) rest) ∧
    buildGroups (sortEntries [demoEntryA, demoEntryB]) = [[demoEntryA], [demoEntryB]] ∧
    layoutLookup (computeOverlapLayout [demoEntryA, demoEntryB]) demoEntryA.id
      = some (LayoutInfo.mk 0 1) ∧
    layoutLookup (computeOverlapLayout [demoEntryA, demoEntryB]) demoEntryB.id
      = some (LayoutInfo.mk 0 1) := by
  refine ⟨?_, ?_, by decide, by decide, by decide⟩
  · intro cur gEnd e rest h
    rw [buildGroupsAux, if_neg (by omega)]
  · intro cur gEnd e rest h
    rw [buildGroupsAux, if_pos h]

/-- Witness for C4's boundary rule at the concrete back-to-back pair. -/
theorem c4_witness :
    buildGroupsAux [demoEntryA] 600 [demoEntryB]
      = [demoEntryA] :: buildGroupsAux [demoEntryB] demoEntryB.endMinutes [] :=
  c4_group_boundary.1 [demoEntryA] 600 demoEntryB [] (by decide)

/-! ## C1 / C5 / C10 — persistence codec -/

/-- The `pad2` shape check holds for all values below 60. -/
theorem pad2Check_true : ∀ k : Fin 60, pad2Check k = true := by decide

/-- `pad2` of a value in `[0, 60)` is two decimal digits recombining to the
value. -/
theorem pad2_spec (n : Int) (h0 : 0 ≤ n) (h60 : n < 60) :
    ∃ a b : Char, pad2 n = [a, b] ∧ a.isDigit = true ∧ b.isDigit = true ∧
      10 * digitValI a + digitValI b = n := by
  have hlt : n.toNat < 60 := by omega
  have hc := pad2Check_true ⟨n.toNat, hlt⟩
  have hn : Int.ofNat n.toNat = n := by
    exact_mod_cast Int.toNat_of_nonneg h0
  unfold pad2Check at hc
  rw [hn] at hc
  split at hc
  · rename_i a b heq
    rw [Bool.and_eq_true, Bool.and_eq_true, decide_eq_true_eq] at hc
    exact ⟨a, b, heq, hc.1.1, hc.1.2, hc.2⟩
  · cases hc

/-- `formatTime24` of a minute value inside one day is `HH:MM` with two-digit
fields recombining to the value. -/
theorem formatTime24_spec (m : Int) (h0 : 0 ≤ m) (h : m < 1440) :
    ∃ a b c d : Char, formatTime24 m = [a, b, ':', c, d] ∧
      (a.isDigit = true ∧ b.isDigit = true ∧ c.isDigit = true ∧ d.isDigit = true) ∧
      timeVal a b c d = m := by
  have hdiv : m.fdiv 60 = m / 60 := Int.fdiv_eq_ediv m (by norm_num)
  have hmod : m.tmod 60 = m % 60 := Int.tmod_eq_emod h0 (by norm_num)
  obtain ⟨a, b, hab, ha, hb, hvab⟩ :=
    pad2_spec (m.fdiv 60) (by rw [hdiv]; omega) (by rw [hdiv]; omega)
  obtain ⟨c, d, hcd, hc, hd, hvcd⟩ :=
    pad2_spec (m.tmod 60) (by rw [hmod]; omega) (by rw [hmod]; omega)
  refine ⟨a, b, c, d, ?_, ⟨ha, hb, hc, hd⟩, ?_⟩
  · rw [formatTime24, hab, hcd]
    rfl
  · simp only [timeVal]
    rw [hvab] at *
    rw [hvcd] at *
    rw [hdiv, hmod] at *
    omega

set_option maxHeartbeats 1000000 in
/-- The block regex accepts a line of the exact heading shape with digit
fields and a non-empty title. -/
theorem parseHeading_explicit (a b c d a2 b2 c2 d2 : Char) (t : Str)
    (ha : a.isDigit = true) (hb : b.isDigit = true) (hc : c.isDigit = true)
    (hd : d.isDigit = true) (ha2 : a2.isDigit = true) (hb2 : b2.isDigit = true)
    (hc2 : c2.isDigit = true) (hd2 : d2.isDigit = true) (hne : t.isEmpty = false) :
    parseHeading ('#' :: '#' :: ' ' :: a :: b :: ':' :: c :: d :: ' ' :: '-' :: ' ' ::
        a2 :: b2 :: ':' :: c2 :: d2 :: ' ' :: '|' :: ' ' :: t)
      = some (timeVal a b c d, timeVal a2 b2 c2 d2, t) := by
  simp only [parseHeading]
  rw [ha, hb, hc, hd, ha2, hb2, hc2, hd2, hne]
  simp

/-- The serializer's sub-heading line parses back to the entry's times and
title. -/
theorem parseHeading_headingLineOf (e : TimeEntry)
    (h0s : 0 ≤ e.startMinutes) (h1s : e.startMinutes < 1440)
    (h0e : 0 ≤ e.endMinutes) (h1e : e.endMinutes < 1440)
    (ht : e.title ≠ []) :
    parseHeading (headingLineOf e) = some (e.startMinutes, e.endMinutes, e.title) := by
  obtain ⟨a, b, c, d, hfs, ⟨ha, hb, hc, hd⟩, hvs⟩ :=
    formatTime24_spec e.startMinutes h0s h1s
  obtain ⟨a2, b2, c2, d2, hfe, ⟨ha2, hb2, hc2, hd2⟩, hve⟩ :=
    formatTime24_spec e.endMinutes h0e h1e
  have hne : e.title.isEmpty = false := by
    cases htl : e.title with
    | nil => exact absurd htl ht
    | cons x xs => rfl
  have hchain : headingLineOf e
      = '#' :: '#' :: ' ' :: a :: b :: ':' :: c :: d :: ' ' :: '-' :: ' ' ::
          a2 :: b2 :: ':' :: c2 :: d2 :: ' ' :: '|' :: ' ' :: e.title := by
    rw [headingLineOf, hfs, hfe]
    rfl
  rw [hchain, parseHeading_explicit a b c d a2 b2 c2 d2 e.title
    ha hb hc hd ha2 hb2 hc2 hd2 hne, hvs, hve]

/-- `splitLines` at a newline. -/
theorem splitLines_newline (rest : Str) :
    splitLines ('\n' :: rest) = [] :: splitLines rest := by
  simp [splitLines]

/-- `splitLines` peels one newline-free line before a newline. -/
theorem splitLines_append_line (xs ys : Str) (h : ∀ c ∈ xs, c ≠ '\n') :
    splitLines (xs ++ '\n' :: ys) = xs :: splitLines ys := by
  induction xs with
  | nil => simpa using splitLines_newline ys
  | cons c xs' ih =>
    have hc : c ≠ '\n' := h c (List.mem_cons_self c xs')
    have h' : ∀ c' ∈ xs', c' ≠ '\n' := fun c' hc' => h c' (List.mem_cons_of_mem c hc')
    simp only [List.cons_append, splitLines]
    rw [if_neg hc, List.append_eq, ih h']

/-- Decimal digits are not newlines. -/
theorem digit_ne_nl (c : Char) (h : c.isDigit = true) : c ≠ '\n' := by
  intro hcn
  subst hcn
  exact absurd h (by decide)

/-- Hex digits are not newlines. -/
theorem hexDigit_ne_nl (c : Char) (h : isHexDigitC c = true) : c ≠ '\n' := by
  intro hcn
  subst hcn
  exact absurd h (by decide)

/-- A color accepted by `isHexColor` is `#` followed by six hex digits. -/
theorem isHexColor_shape (s : Str) (h : isHexColor s = true) :
    ∃ a b c d f g, s = ['#', a, b, c, d, f, g] ∧
      (isHexDigitC a = true ∧ isHexDigitC b = true ∧ isHexDigitC c = true ∧
       isHexDigitC d = true ∧ isHexDigitC f = true ∧ isHexDigitC g = true) := by
  unfold isHexColor at h
  split at h
  · rename_i rest
    rw [Bool.and_eq_true, beq_iff_eq] at h
    obtain ⟨hlen, hall⟩ := h
    rcases rest with _ | ⟨a, _ | ⟨b, _ | ⟨c, _ | ⟨d, _ | ⟨f, _ | ⟨g, _ | ⟨x, r⟩⟩⟩⟩⟩⟩⟩
    all_goals first
      | (refine ⟨_, _, _, _, _, _, rfl, ?_⟩
         simpa [List.all_cons] using hall)
      | (exfalso; simp at hlen)
  · cases h

/-- A hex color string contains no newline. -/
theorem safe_of_hexColor (s : Str) (h : isHexColor s = true) :
    ∀ c ∈ s, c ≠ '\n' := by
  obtain ⟨a, b, c, d, f, g, rfl, h1, h2, h3, h4, h5, h6⟩ := isHexColor_shape s h
  intro ch hch
  simp only [List.mem_cons, List.mem_singleton] at hch
  rcases hch with rfl | rfl | rfl | rfl | rfl | rfl | rfl | hch
  · decide
  · exact hexDigit_ne_nl _ h1
  · exact hexDigit_ne_nl _ h2
  · exact hexDigit_ne_nl _ h3
  · exact hexDigit_ne_nl _ h4
  · exact hexDigit_ne_nl _ h5
  · exact hexDigit_ne_nl _ h6
  · cases hch

/-- The serialized heading line contains no newline. -/
theorem safe_headingLineOf (e : TimeEntry)
    (h0s : 0 ≤ e.startMinutes) (h1s : e.startMinutes < 1440)
    (h0e : 0 ≤ e.endMinutes) (h1e : e.endMinutes < 1440)
    (hts : strSafe e.title) :
    ∀ ch ∈ headingLineOf e, ch ≠ '\n' := by
  obtain ⟨a, b, c, d, hfs, ⟨ha, hb, hc, hd⟩, _⟩ :=
    formatTime24_spec e.startMinutes h0s h1s
  obtain ⟨a2, b2, c2, d2, hfe, ⟨ha2, hb2, hc2, hd2⟩, _⟩ :=
    formatTime24_spec e.endMinutes h0e h1e
  intro ch hch
  rw [headingLineOf, hfs, hfe] at hch
  simp only [List.mem_append, List.mem_cons, List.mem_singleton] at hch
  rcases hch with ((((hch | hch) | hch) | hch) | hch) | hch
  · rcases hch with rfl | rfl | rfl | hch
    · decide
    · decide
    · decide
    · cases hch
  · rcases hch with rfl | rfl | rfl | rfl | rfl | hch
    · exact digit_ne_nl _ ha
    · exact digit_ne_nl _ hb
    · decide
    · exact digit_ne_nl _ hc
    · exact digit_ne_nl _ hd
    · cases hch
  · rcases hch with rfl | rfl | rfl | hch
    · decide
    · decide
    · decide
    · cases hch
  · rcases hch with rfl | rfl | rfl | rfl | rfl | hch
    · exact digit_ne_nl _ ha2
    · exact digit_ne_nl _ hb2
    · decide
    · exact digit_ne_nl _ hc2
    · exact digit_ne_nl _ hd2
    · cases hch
  · rcases hch with rfl | rfl | rfl | hch
    · decide
    · decide
    · decide
    · cases hch
  · exact (hts ch hch).1

/-- Splitting one serialized entry block produces exactly its lines. -/
theorem splitLines_entryBlock (e : TimeEntry) (hwf : wfEntry e) (rest : Str) :
    splitLines (entryBlock e ++ rest) = blockLines e ++ splitLines rest := by
  obtain ⟨h0s, h1s, h0e, h1e, htne, hts, hidne, hids, htrim, hdm, hcol⟩ := hwf
  have hH := safe_headingLineOf e h0s h1s h0e h1e hts
  have hCM : ∀ ch ∈ colorMarker, ch ≠ '\n' := by decide
  have hIM : ∀ ch ∈ idMarker, ch ≠ '\n' := by decide
  have hC : ∀ ch ∈ colorLineOf e, ch ≠ '\n' := by
    intro ch hch
    rcases List.mem_append.mp hch with hch | hch
    · exact hCM ch hch
    · exact safe_of_hexColor e.color hcol ch hch
  have hI : ∀ ch ∈ idLineOf e, ch ≠ '\n' := by
    intro ch hch
    rcases List.mem_append.mp hch with hch | hch
    · exact hIM ch hch
    · exact (hids ch hch).1
  have hD : ∀ ch ∈ doneMarker, ch ≠ '\n' := by decide
  cases hd : e.done with
  | false =>
    have hshape : entryBlock e ++ rest
        = headingLineOf e ++ '\n' :: (colorLineOf e ++ '\n' ::
            (idLineOf e ++ '\n' :: ('\n' :: rest))) := by
      simp [entryBlock, headingLineOf, colorLineOf, idLineOf, hd,
        List.append_assoc, show ("\n".data : Str) = ['\n'] from rfl]
    rw [hshape, splitLines_append_line _ _ hH, splitLines_append_line _ _ hC,
      splitLines_append_line _ _ hI, splitLines_newline]
    simp [blockLines, hd]
  | true =>
    have hshape : entryBlock e ++ rest
        = headingLineOf e ++ '\n' :: (colorLineOf e ++ '\n' ::
            (idLineOf e ++ '\n' :: (doneMarker ++ '\n' :: ('\n' :: rest)))) := by
      simp [entryBlock, headingLineOf, colorLineOf, idLineOf, hd,
        List.append_assoc, show ("\n".data : Str) = ['\n'] from rfl]
    rw [hshape, splitLines_append_line _ _ hH, splitLines_append_line _ _ hC,
      splitLines_append_line _ _ hI, splitLines_append_line _ _ hD, splitLines_newline]
    simp [blockLines, hd]

/-- Splitting the concatenated blocks of a list of entries yields its
document lines. -/
theorem splitLines_blocksFlatten (ls : List TimeEntry) (h : ∀ e ∈ ls, wfEntry e) :
    splitLines ((ls.map entryBlock).flatten) = docLines ls := by
  induction ls with
  | nil => rfl
  | cons e ls ih =>
    simp only [List.map_cons, List.flatten_cons]
    rw [splitLines_entryBlock e (h e (List.mem_cons_self e ls)) _,
      ih (fun e' he' => h e' (List.mem_cons_of_mem _ he'))]
    simp [docLines]

/-- Splitting a serialized document yields the date line, a blank line, and
the blocks' lines. -/
theorem splitLines_serialize (entries : List TimeEntry) (dateStr : Str)
    (hdate : ∀ c ∈ dateStr, c ≠ '\n')
    (h : ∀ e ∈ sortByStart entries, wfEntry e) :
    splitLines (entriesToMarkdown entries dateStr)
      = ('#' :: ' ' :: dateStr) :: [] :: docLines (sortByStart entries) := by
  have hshape : entriesToMarkdown entries dateStr
      = ('#' :: ' ' :: dateStr) ++ '\n' ::
          ('\n' :: ((sortByStart entries).map entryBlock).flatten) := by
    simp [entriesToMarkdown, List.append_assoc,
      show ("# ".data : Str) = ['#', ' '] from rfl,
      show ("\n\n".data : Str) = ['\n', '\n'] from rfl]
  have hdsafe : ∀ c ∈ '#' :: ' ' :: dateStr, c ≠ '\n' := by
    intro c hc
    rcases List.mem_cons.mp hc with rfl | hc
    · decide
    · rcases List.mem_cons.mp hc with rfl | hc
      · decide
      · exact hdate c hc
  rw [hshape, splitLines_append_line _ _ hdsafe, splitLines_newline,
    splitLines_blocksFlatten _ h]

/-- A list is a prefix (as `isPrefixOf`) of itself followed by anything. -/
theorem isPrefixOf_append_self (a b : Str) : a.isPrefixOf (a ++ b) = true := by
  induction a with
  | nil => simp [List.isPrefixOf]
  | cons c a' ih => simpa [List.isPrefixOf] using ih

/-- A prefix of `t ++ b` agrees with `t` on their common range and its
remainder is a prefix of `b`. -/
theorem pref_append_split (m t b : Str) (h : m.isPrefixOf (t ++ b) = true) :
    m.take t.length = t.take m.length ∧ (m.drop t.length).isPrefixOf b = true := by
  induction t generalizing m with
  | nil => simpa using h
  | cons c t' ih =>
    cases m with
    | nil => simp
    | cons d m' =>
      rw [List.cons_append, List.isPrefixOf, Bool.and_eq_true, beq_iff_eq] at h
      obtain ⟨rfl, h2⟩ := h
      obtain ⟨ih1, ih2⟩ := ih m' h2
      refine ⟨?_, by simpa using ih2⟩
      simp only [List.length_cons, List.take_succ_cons, ih1]

/-- Disagreement on the common range rules out being a prefix of `t ++ b`. -/
theorem notPrefix_append_of_take_ne (m t b : Str)
    (hne : m.take t.length ≠ t.take m.length) :
    ¬ (m.isPrefixOf (t ++ b) = true) :=
  fun h => hne (pref_append_split m t b h).1

/-- `firstMatch` succeeds immediately when the whole string matches. -/
theorem firstMatch_eq_some_head {α : Type} (tryAt : Str → Option α) (l : Str)
    (a : α) (h : tryAt l = some a) : firstMatch tryAt l = some a := by
  cases l <;> simp [firstMatch, h]

/-- `firstMatch` over an append fails when no position inside the left part
matches and the right part alone has no match. -/
theorem firstMatch_append_none {α : Type} (tryAt : Str → Option α) (a b : Str)
    (ha : ∀ t ∈ a.tails, t ≠ [] → tryAt (t ++ b) = none)
    (hb : firstMatch tryAt b = none) :
    firstMatch tryAt (a ++ b) = none := by
  induction a with
  | nil => simpa using hb
  | cons c a' ih =>
    have h1 : tryAt (c :: (a' ++ b)) = none := by
      have := ha (c :: a') (by rw [List.tails_cons]; exact List.mem_cons_self _ _)
        (by simp)
      simpa using this
    simp only [List.cons_append, firstMatch, List.append_eq, h1]
    exact ih (fun t ht hne => ha t
      (by rw [List.tails_cons]; exact List.mem_cons_of_mem _ ht) hne)

/-- `firstMatch` fails when the match function fails on every suffix. -/
theorem firstMatch_eq_none_of_tails {α : Type} (tryAt : Str → Option α) (l : Str)
    (h : ∀ t ∈ l.tails, tryAt t = none) : firstMatch tryAt l = none := by
  induction l with
  | nil => exact h [] (by simp)
  | cons c rest ih =>
    have h1 : tryAt (c :: rest) = none :=
      h (c :: rest) (by rw [List.tails_cons]; exact List.mem_cons_self _ _)
    simp only [firstMatch, h1]
    exact ih (fun t ht => h t (by rw [List.tails_cons]; exact List.mem_cons_of_mem _ ht))

/-- The color matcher captures the serializer's own color line exactly. -/
theorem tryColorAt_colorLine (e : TimeEntry) (hcol : isHexColor e.color = true) :
    tryColorAt (colorLineOf e) = some e.color := by
  obtain ⟨a, b, c, d, f, g, hsh, h1, h2, h3, h4, h5, h6⟩ := isHexColor_shape e.color hcol
  rw [tryColorAt, colorLineOf, if_pos (isPrefixOf_append_self _ _), List.drop_left, hsh]
  simp [h1, h2, h3, h4, h5, h6]

/-- The id matcher captures the serializer's own id line exactly. -/
theorem tryIdAt_idLine (e : TimeEntry) (hid : e.id ≠ []) :
    tryIdAt (idLineOf e) = some e.id := by
  rw [tryIdAt, idLineOf, if_pos (isPrefixOf_append_self _ _), List.drop_left]
  cases hid2 : e.id with
  | nil => exact absurd hid2 hid
  | cons x xs => rfl

/-- The done matcher fails on any line not starting with `-`. -/
theorem tryDoneAt_cons_ne (c : Char) (t : Str) (hc : c ≠ '-') :
    tryDoneAt (c :: t) = none := by
  rw [tryDoneAt, if_neg]
  intro h
  rw [show doneMarker = '-' :: "- **Done:** true".data.tail from rfl,
    List.isPrefixOf, Bool.and_eq_true, beq_iff_eq] at h
  exact hc h.1.symm

/-- The id matcher fails on any line not starting with `-`. -/
theorem tryIdAt_cons_ne (c : Char) (t : Str) (hc : c ≠ '-') :
    tryIdAt (c :: t) = none := by
  rw [tryIdAt, if_neg]
  intro h
  rw [show idMarker = '-' :: "- **ID:** ".data.tail from rfl,
    List.isPrefixOf, Bool.and_eq_true, beq_iff_eq] at h
  exact hc h.1.symm

/-- Every character of a hex color is `#` or a hex digit. -/
theorem hexColor_chars (s : Str) (h : isHexColor s = true) :
    ∀ c ∈ s, c = '#' ∨ isHexDigitC c = true := by
  obtain ⟨a, b, c, d, f, g, rfl, h1, h2, h3, h4, h5, h6⟩ := isHexColor_shape s h
  intro ch hch
  simp only [List.mem_cons, List.mem_singleton] at hch
  rcases hch with rfl | rfl | rfl | rfl | rfl | rfl | rfl | hch
  · exact Or.inl rfl
  · exact Or.inr h1
  · exact Or.inr h2
  · exact Or.inr h3
  · exact Or.inr h4
  · exact Or.inr h5
  · exact Or.inr h6
  · cases hch

/-- Hex-color characters are not dashes. -/
theorem hexColor_ne_dash (s : Str) (h : isHexColor s = true) :
    ∀ c ∈ s, c ≠ '-' := by
  intro c hc
  rcases hexColor_chars s h c hc with rfl | hhex
  · decide
  · intro hcd
    subst hcd
    exact absurd hhex (by decide)

/-- The done matcher fails on every suffix of a hex color. -/
theorem firstMatch_done_hexColor (s : Str) (h : isHexColor s = true) :
    firstMatch tryDoneAt s = none := by
  refine firstMatch_eq_none_of_tails _ _ ?_
  intro t ht
  cases t with
  | nil => decide
  | cons c t' =>
    have hc : c ∈ s :=
      (List.IsSuffix.subset ((List.mem_tails _ _).mp ht)) (List.mem_cons_self c t')
    exact tryDoneAt_cons_ne c t' (hexColor_ne_dash s h c hc)

/-- The id matcher fails on every suffix of a hex color. -/
theorem firstMatch_id_hexColor (s : Str) (h : isHexColor s = true) :
    firstMatch tryIdAt s = none := by
  refine firstMatch_eq_none_of_tails _ _ ?_
  intro t ht
  cases t with
  | nil => decide
  | cons c t' =>
    have hc : c ∈ s :=
      (List.IsSuffix.subset ((List.mem_tails _ _).mp ht)) (List.mem_cons_self c t')
    exact tryIdAt_cons_ne c t' (hexColor_ne_dash s h c hc)

/-- The done matcher relates to `containsSub`. -/
theorem firstMatch_done_eq_none_iff (s : Str) :
    firstMatch tryDoneAt s = none ↔ containsSub doneMarker s = false := by
  induction s with
  | nil => simp [firstMatch, tryDoneAt, containsSub, doneMarker, List.isPrefixOf]
  | cons c rest ih =>
    by_cases hp : doneMarker.isPrefixOf (c :: rest) = true
    · simp [firstMatch, tryDoneAt, containsSub, hp]
    · have hp' : doneMarker.isPrefixOf (c :: rest) = false :=
        Bool.eq_false_iff.mpr hp
      simp [firstMatch, tryDoneAt, containsSub, hp', ih]

/-- No suffix of the serializer's color line matches the done marker. -/
theorem hasDoneLine_colorLine (e : TimeEntry) (hcol : isHexColor e.color = true) :
    hasDoneLine (colorLineOf e) = false := by
  rw [hasDoneLine, colorLineOf]
  rw [firstMatch_append_none tryDoneAt colorMarker e.color ?ha ?hb]
  · rfl
  case ha =>
    have hdec : ∀ t ∈ colorMarker.tails, t ≠ [] →
        doneMarker.take t.length ≠ t.take doneMarker.length := by decide
    intro t ht hne
    rw [tryDoneAt, if_neg (notPrefix_append_of_take_ne _ _ _ (hdec t ht hne))]
  case hb => exact firstMatch_done_hexColor e.color hcol

/-- No suffix of the serializer's id line matches the done marker, provided
the id itself does not contain the marker text. -/
theorem hasDoneLine_idLine (e : TimeEntry)
    (hdm : containsSub doneMarker e.id = false) :
    hasDoneLine (idLineOf e) = false := by
  rw [hasDoneLine, idLineOf]
  rw [firstMatch_append_none tryDoneAt idMarker e.id ?ha ?hb]
  · rfl
  case ha =>
    have hdec : ∀ t ∈ idMarker.tails, t ≠ [] →
        doneMarker.take t.length ≠ t.take doneMarker.length := by decide
    intro t ht hne
    rw [tryDoneAt, if_neg (notPrefix_append_of_take_ne _ _ _ (hdec t ht hne))]
  case hb => exact (firstMatch_done_eq_none_iff e.id).mpr hdm

/-- The id matcher finds nothing on the serializer's color line. -/
theorem firstMatch_id_colorLine (e : TimeEntry) (hcol : isHexColor e.color = true) :
    firstMatch tryIdAt (colorLineOf e) = none := by
  rw [colorLineOf]
  refine firstMatch_append_none tryIdAt colorMarker e.color ?_ ?_
  · have hdec : ∀ t ∈ colorMarker.tails, t ≠ [] →
        idMarker.take t.length ≠ t.take idMarker.length := by decide
    intro t ht hne
    rw [tryIdAt, if_neg (notPrefix_append_of_take_ne _ _ _ (hdec t ht hne))]
  · exact firstMatch_id_hexColor e.color hcol

/-- The serializer's heading line starts a region boundary. -/
theorem startsWithHH_headingLineOf (e : TimeEntry) :
    startsWithHH (headingLineOf e) = true := rfl

/-- The serializer's color line is not a region boundary. -/
theorem startsWithHH_colorLineOf (e : TimeEntry) :
    startsWithHH (colorLineOf e) = false := rfl

/-- The serializer's id line is not a region boundary. -/
theorem startsWithHH_idLineOf (e : TimeEntry) :
    startsWithHH (idLineOf e) = false := rfl

/-- The color line never parses as a heading. -/
theorem parseHeading_colorLineOf (e : TimeEntry) :
    parseHeading (colorLineOf e) = none := rfl

/-- The id line never parses as a heading. -/
theorem parseHeading_idLineOf (e : TimeEntry) :
    parseHeading (idLineOf e) = none := rfl

/-- A parse step skips a line that does not match the block regex. -/
theorem entriesFromLines_skip (gen : Nat → Str) (k : Nat) (l : Str)
    (rest : List Str) (h : parseHeading l = none) :
    entriesFromLines gen k (l :: rest) = entriesFromLines gen k rest := by
  simp [entriesFromLines, h]

/-- `takeWhile` walks through a block of satisfying elements. -/
theorem takeWhile_append_all {α : Type} {p : α → Bool} (A B : List α)
    (h : ∀ a ∈ A, p a = true) :
    (A ++ B).takeWhile p = A ++ B.takeWhile p := by
  induction A with
  | nil => rfl
  | cons a A' ih =>
    rw [List.cons_append, List.takeWhile_cons,
      if_pos (h a (List.mem_cons_self a A')), List.cons_append,
      ih (fun x hx => h x (List.mem_cons_of_mem a hx))]

/-- The metadata region never extends past the next block: the part of the
following document lines a region can absorb consists of empty lines only. -/
theorem docLines_takeWhile_empty (ls : List TimeEntry) :
    ∀ l ∈ (docLines ls).takeWhile (fun l2 => !(startsWithHH l2)), l = [] := by
  cases ls with
  | nil =>
    intro l hl
    simp only [docLines, List.takeWhile_cons] at hl
    simp at hl
    exact hl.2
  | cons e2 ls2 =>
    intro l hl
    simp only [docLines, blockLines, List.cons_append, List.append_assoc,
      List.takeWhile_cons, startsWithHH_headingLineOf] at hl
    simp at hl

/-- `hasDoneLine` on an empty line. -/
theorem hasDoneLine_nil : hasDoneLine [] = false := by decide

/-- `hasDoneLine` on the done-marker line itself. -/
theorem hasDoneLine_doneMarker : hasDoneLine doneMarker = true := by decide

/-- A parse step at a line matching the block regex produces one entry from
the metadata region and recurses on the remaining lines. -/
theorem entriesFromLines_heading (gen : Nat → Str) (k : Nat) (l : Str)
    (rest : List Str) (s en : Int) (t : Str)
    (h : parseHeading l = some (s, en, t)) :
    entriesFromLines gen k (l :: rest)
      = (TimeEntry.mk
          (match firstSome (firstMatch tryIdAt)
              (rest.takeWhile (fun l2 => !(startsWithHH l2))) with
           | some i => trimStr i
           | none => gen k)
          t s en
          (match firstSome (firstMatch tryColorAt)
              (rest.takeWhile (fun l2 => !(startsWithHH l2))) with
           | some c => c
           | none => "#4a9eff".data)
          ((rest.takeWhile (fun l2 => !(startsWithHH l2))).any hasDoneLine)) ::
        entriesFromLines gen
          (match firstSome (firstMatch tryIdAt)
              (rest.takeWhile (fun l2 => !(startsWithHH l2))) with
           | some _ => k
           | none => k + 1) rest := by
  simp [entriesFromLines, h]

/-- Parsing the lines of one serialized block recovers the entry and
continues with the following blocks' lines. -/
theorem entriesFromLines_block (gen : Nat → Str) (k : Nat) (e : TimeEntry)
    (hwf : wfEntry e) (ls : List TimeEntry) :
    entriesFromLines gen k (docLines (e :: ls))
      = e :: entriesFromLines gen k (docLines ls) := by
  obtain ⟨h0s, h1s, h0e, h1e, htne, hts, hidne, hids, htrim, hdm, hcol⟩ := hwf
  have hparse := parseHeading_headingLineOf e h0s h1s h0e h1e htne
  have hCcol : firstMatch tryColorAt (colorLineOf e) = some e.color :=
    firstMatch_eq_some_head _ _ _ (tryColorAt_colorLine e hcol)
  have hCid : firstMatch tryIdAt (colorLineOf e) = none :=
    firstMatch_id_colorLine e hcol
  have hIid : firstMatch tryIdAt (idLineOf e) = some e.id :=
    firstMatch_eq_some_head _ _ _ (tryIdAt_idLine e hidne)
  have hCd := hasDoneLine_colorLine e hcol
  have hId := hasDoneLine_idLine e hdm
  have hanyext : ((docLines ls).takeWhile
      (fun l2 => !(startsWithHH l2))).any hasDoneLine = false := by
    refine List.any_eq_false.mpr ?_
    intro x hx
    rw [docLines_takeWhile_empty ls x hx, hasDoneLine_nil]
    simp
  cases hdone : e.done with
  | false =>
    have hdoc : docLines (e :: ls)
        = headingLineOf e :: colorLineOf e :: idLineOf e :: [] :: docLines ls := by
      simp [docLines, blockLines, hdone]
    rw [hdoc, entriesFromLines_heading gen k _ _ _ _ _ hparse]
    have hreg : (colorLineOf e :: idLineOf e :: [] :: docLines ls).takeWhile
          (fun l2 => !(startsWithHH l2))
        = colorLineOf e :: idLineOf e :: [] ::
            (docLines ls).takeWhile (fun l2 => !(startsWithHH l2)) := by
      rw [List.takeWhile_cons, if_pos (by rw [startsWithHH_colorLineOf]; rfl),
        List.takeWhile_cons, if_pos (by rw [startsWithHH_idLineOf]; rfl),
        List.takeWhile_cons, if_pos (by decide)]
    rw [hreg]
    have hcolorO : firstSome (firstMatch tryColorAt)
        (colorLineOf e :: idLineOf e :: [] ::
          (docLines ls).takeWhile (fun l2 => !(startsWithHH l2))) = some e.color := by
      simp [firstSome, hCcol]
    have hidO : firstSome (firstMatch tryIdAt)
        (colorLineOf e :: idLineOf e :: [] ::
          (docLines ls).takeWhile (fun l2 => !(startsWithHH l2))) = some e.id := by
      simp [firstSome, hCid, hIid]
    have hany : (colorLineOf e :: idLineOf e :: [] ::
        (docLines ls).takeWhile (fun l2 => !(startsWithHH l2))).any hasDoneLine
          = false := by
      simp [List.any_cons, hCd, hId, hasDoneLine_nil, hanyext]
    rw [hcolorO, hidO, hany]
    rw [entriesFromLines_skip _ _ _ _ (parseHeading_colorLineOf e),
      entriesFromLines_skip _ _ _ _ (parseHeading_idLineOf e),
      entriesFromLines_skip _ _ _ _ (show parseHeading [] = none from rfl)]
    simp only [htrim]
    have he : TimeEntry.mk e.id e.title e.startMinutes e.endMinutes e.color false = e := by
      rw [← hdone]
    rw [he]
  | true =>
    have hdoc : docLines (e :: ls)
        = headingLineOf e :: colorLineOf e :: idLineOf e :: doneMarker ::
            [] :: docLines ls := by
      simp [docLines, blockLines, hdone]
    rw [hdoc, entriesFromLines_heading gen k _ _ _ _ _ hparse]
    have hreg : (colorLineOf e :: idLineOf e :: doneMarker :: [] :: docLines ls).takeWhile
          (fun l2 => !(startsWithHH l2))
        = colorLineOf e :: idLineOf e :: doneMarker :: [] ::
            (docLines ls).takeWhile (fun l2 => !(startsWithHH l2)) := by
      rw [List.takeWhile_cons, if_pos (by rw [startsWithHH_colorLineOf]; rfl),
        List.takeWhile_cons, if_pos (by rw [startsWithHH_idLineOf]; rfl),
        List.takeWhile_cons, if_pos (by decide),
        List.takeWhile_cons, if_pos (by decide)]
    rw [hreg]
    have hcolorO : firstSome (firstMatch tryColorAt)
        (colorLineOf e :: idLineOf e :: doneMarker :: [] ::
          (docLines ls).takeWhile (fun l2 => !(startsWithHH l2))) = some e.color := by
      simp [firstSome, hCcol]
    have hidO : firstSome (firstMatch tryIdAt)
        (colorLineOf e :: idLineOf e :: doneMarker :: [] ::
          (docLines ls).takeWhile (fun l2 => !(startsWithHH l2))) = some e.id := by
      simp [firstSome, hCid, hIid]
    have hany : (colorLineOf e :: idLineOf e :: doneMarker :: [] ::
        (docLines ls).takeWhile (fun l2 => !(startsWithHH l2))).any hasDoneLine
          = true := by
      simp [List.any_cons, hasDoneLine_doneMarker]
    rw [hcolorO, hidO, hany]
    rw [entriesFromLines_skip _ _ _ _ (parseHeading_colorLineOf e),
      entriesFromLines_skip _ _ _ _ (parseHeading_idLineOf e),
      entriesFromLines_skip _ _ _ _ (show parseHeading doneMarker = none by decide),
      entriesFromLines_skip _ _ _ _ (show parseHeading [] = none from rfl)]
    simp only [htrim]
    have he : TimeEntry.mk e.id e.title e.startMinutes e.endMinutes e.color true = e := by
      rw [← hdone]
    rw [he]

/-- Parsing all serialized blocks recovers the entry list. -/
theorem entriesFromLines_docLines (gen : Nat → Str) (ls : List TimeEntry)
    (h : ∀ e ∈ ls, wfEntry e) : ∀ k, entriesFromLines gen k (docLines ls) = ls := by
  induction ls with
  | nil => intro k; rfl
  | cons e ls ih =>
    intro k
    rw [entriesFromLines_block gen k e (h e (List.mem_cons_self e ls)) ls,
      ih (fun e' he' => h e' (List.mem_cons_of_mem _ he')) k]

/-- A document consisting of a single newline-free line. -/
theorem splitLines_no_newline (xs : Str) (h : ∀ c ∈ xs, c ≠ '\n') :
    splitLines xs = [xs] := by
  induction xs with
  | nil => rfl
  | cons c xs' ih =>
    have hc : c ≠ '\n' := h c (List.mem_cons_self c xs')
    simp only [splitLines]
    rw [if_neg hc, ih (fun c' hc' => h c' (List.mem_cons_of_mem c hc'))]

/-- C1 amended: the round trip `markdownToEntries ∘ entriesToMarkdown`
reproduces every field of every entry and reorders the list chronologically
by `startMinutes` (stably), for entries that are round-trippable: times in
`[0, 1440)`, non-empty single-line titles, non-empty trim-invariant
single-line ids not containing the done-marker text, colors of the exact
`#hhhhhh` shape, and a single-line date string. -/
theorem c1_roundtrip (gen : Nat → Str) (entries : List TimeEntry) (dateStr : Str)
    (hwf : ∀ e ∈ entries, wfEntry e) (hdate : strSafe dateStr) :
    markdownToEntries gen (entriesToMarkdown entries dateStr)
      = sortByStart entries := by
  have hwfs : ∀ e ∈ sortByStart entries, wfEntry e := by
    intro e he
    exact hwf e (mem_stableSort.mp he)
  have hdate' : ∀ c ∈ dateStr, c ≠ '\n' := fun c hc => (hdate c hc).1
  rw [markdownToEntries, splitLines_serialize entries dateStr hdate' hwfs,
    entriesFromLines_skip _ _ _ _
      (show parseHeading ('#' :: ' ' :: dateStr) = none from rfl),
    entriesFromLines_skip _ _ _ _ (show parseHeading [] = none from rfl)]
  exact entriesFromLines_docLines gen (sortByStart entries) hwfs 0

/-- Witness for the amended C1: a concrete two-entry list given in reverse
order round-trips to its chronological ordering. -/
theorem c1_witness :
    markdownToEntries defaultGen
        (entriesToMarkdown [demoEntryB, demoEntryA] demoDate)
      = sortByStart [demoEntryB, demoEntryA] :=
  c1_roundtrip defaultGen [demoEntryB, demoEntryA] demoDate (by decide) (by decide)

/-- C1 counterexample: the data model allows an empty title, but the
serialized heading of an empty-titled entry does not match the block regex
(whose title group requires at least one character), so the round trip
drops the entry instead of reproducing it. -/
theorem c1_counterexample :
    markdownToEntries defaultGen (entriesToMarkdown [demoEmptyTitle] demoDate) = [] ∧
    ([] : List TimeEntry) ≠ sortByStart [demoEmptyTitle] := by
  constructor
  · decide
  · decide

/-- C5: for every parsed sub-heading, only the text strictly before the next
sub-heading (or end of document) is searched for metadata.  `markdownToEntries`
is the line scan `entriesFromLines` started at counter 0, and whenever that
scan meets a line matching the block regex, the following lines decompose
uniquely as `region ++ suffix` with `region` the lines strictly before the
next sub-heading and `suffix` empty or starting with one; the produced
entry's id, color and done flag are then computed from `region` alone —
`suffix`, and so any later entry's region, never leaks in: a region without
an ID line yields the freshly generated id `gen k`, one without a Color line
yields the default `#4a9eff` whatever colors `suffix` specifies, and one
whose lines lack the Done marker has `region.any hasDoneLine = false`, so
`done = false`. -/
theorem c5_metadata_region :
    (∀ (gen : Nat → Str) (md : Str),
      markdownToEntries gen md = entriesFromLines gen 0 (splitLines md)) ∧
    ∀ (gen : Nat → Str) (k : Nat) (l : Str) (region suffix : List Str)
      (s en : Int) (t : Str),
      parseHeading l = some (s, en, t) →
      (∀ x ∈ region, startsWithHH x = false) →
      (suffix = [] ∨ ∃ h2 t2, suffix = h2 :: t2 ∧ startsWithHH h2 = true) →
      entriesFromLines gen k (l :: (region ++ suffix))
        = TimeEntry.mk
            (match firstSome (firstMatch tryIdAt) region with
             | some i => trimStr i
             | none => gen k)
            t s en
            (match firstSome (firstMatch tryColorAt) region with
             | some c => c
             | none => "#4a9eff".data)
            (region.any hasDoneLine) ::
          entriesFromLines gen
            (match firstSome (firstMatch tryIdAt) region with
             | some _ => k
             | none => k + 1) (region ++ suffix) := by
  refine ⟨fun gen md => rfl, ?_⟩
  intro gen k l region suffix s en t hparse hreg hsuf
  have htake : (region ++ suffix).takeWhile (fun l2 => !(startsWithHH l2))
      = region := by
    rw [takeWhile_append_all region suffix (fun x hx => by simp [hreg x hx])]
    rcases hsuf with rfl | ⟨h2, t2, rfl, hh2⟩
    · simp
    · simp [List.takeWhile_cons, hh2]
  rw [entriesFromLines_heading gen k l (region ++ suffix) s en t hparse, htake]

/-- Witness for C5 at the metadata-bleed scenario: the first heading's region
(an ID line and a blank line) lacks a Color line, the suffix starting at the
next sub-heading specifies `#ef4444`, yet the first entry gets the default
color `#4a9eff`. -/
theorem c5_witness :
    entriesFromLines defaultGen 0
        ("## 09:00 - 10:00 | Entry A".data ::
          (["- **ID:** id-a".data, []] ++
            ["## 10:00 - 11:00 | Entry B".data, "- **Color:** #ef4444".data]))
      = TimeEntry.mk "id-a".data "Entry A".data 540 600 "#4a9eff".data false ::
        entriesFromLines defaultGen 0
          (["- **ID:** id-a".data, []] ++
            ["## 10:00 - 11:00 | Entry B".data, "- **Color:** #ef4444".data]) := by
  have h := c5_metadata_region.2 defaultGen 0 "## 09:00 - 10:00 | Entry A".data
    ["- **ID:** id-a".data, []]
    ["## 10:00 - 11:00 | Entry B".data, "- **Color:** #ef4444".data]
    540 600 "Entry A".data (by decide) (by decide)
    (Or.inr ⟨_, _, rfl, by decide⟩)
  rw [h]
  decide

/-- C10: `markdownToEntries` performs no range validation — any heading with
two-digit fields parses to `60*HH + MM` verbatim, and the concrete document
`## 25:00 - 24:99 | x` yields start 1500 and end 1539, both outside
`[0, 1440)`. -/
theorem c10_no_range_validation (gen : Nat → Str) :
    (∀ (a b c d a2 b2 c2 d2 : Char) (t : Str),
      a.isDigit = true → b.isDigit = true → c.isDigit = true → d.isDigit = true →
      a2.isDigit = true → b2.isDigit = true → c2.isDigit = true → d2.isDigit = true →
      t.isEmpty = false → (∀ ch ∈ t, ch ≠ '\n') →
      markdownToEntries gen
          ('#' :: '#' :: ' ' :: a :: b :: ':' :: c :: d :: ' ' :: '-' :: ' ' ::
            a2 :: b2 :: ':' :: c2 :: d2 :: ' ' :: '|' :: ' ' :: t)
        = [TimeEntry.mk (gen 0) t (timeVal a b c d) (timeVal a2 b2 c2 d2)
            "#4a9eff".data false]) ∧
    markdownToEntries gen outOfRangeDoc
      = [TimeEntry.mk (gen 0) "x".data 1500 1539 "#4a9eff".data false] ∧
    ¬((1500 : Int) < 1440) ∧ ¬((1539 : Int) < 1440) := by
  refine ⟨?_, rfl, by decide, by decide⟩
  intro a b c d a2 b2 c2 d2 t ha hb hc hd ha2 hb2 hc2 hd2 hne htnl
  have hall : ∀ ch ∈ ('#' :: '#' :: ' ' :: a :: b :: ':' :: c :: d :: ' ' :: '-' :: ' ' ::
      a2 :: b2 :: ':' :: c2 :: d2 :: ' ' :: '|' :: ' ' :: t), ch ≠ '\n' := by
    intro ch hch
    simp only [List.mem_cons] at hch
    rcases hch with rfl | rfl | rfl | hch4
    · decide
    · decide
    · decide
    rcases hch4 with rfl | rfl | rfl | hch7
    · exact digit_ne_nl _ ha
    · exact digit_ne_nl _ hb
    · decide
    rcases hch7 with rfl | rfl | rfl | hch10
    · exact digit_ne_nl _ hc
    · exact digit_ne_nl _ hd
    · decide
    rcases hch10 with rfl | rfl | rfl | hch13
    · decide
    · decide
    · exact digit_ne_nl _ ha2
    rcases hch13 with rfl | rfl | rfl | hch16
    · exact digit_ne_nl _ hb2
    · decide
    · exact digit_ne_nl _ hc2
    rcases hch16 with rfl | rfl | rfl | hch19
    · exact digit_ne_nl _ hd2
    · decide
    · decide
    rcases hch19 with rfl | hch20
    · decide
    · exact htnl ch hch20
  rw [markdownToEntries, splitLines_no_newline _ hall,
    entriesFromLines_heading gen 0 _ _ _ _ _
      (parseHeading_explicit a b c d a2 b2 c2 d2 t ha hb hc hd ha2 hb2 hc2 hd2 hne)]
  simp [firstSome, entriesFromLines]

/-- Witness for C10's general clause at the out-of-range heading fields. -/
theorem c10_witness :
    markdownToEntries defaultGen
        ('#' :: '#' :: ' ' :: '2' :: '5' :: ':' :: '0' :: '0' :: ' ' :: '-' :: ' ' ::
          '2' :: '4' :: ':' :: '9' :: '9' :: ' ' :: '|' :: ' ' :: ['x'])
      = [TimeEntry.mk (defaultGen 0) ['x'] (timeVal '2' '5' '0' '0')
          (timeVal '2' '4' '9' '9') "#4a9eff".data false] :=
  (c10_no_range_validation defaultGen).1 '2' '5' '0' '0' '2' '4' '9' '9' ['x']
    (by decide) (by decide) (by decide) (by decide) (by decide) (by decide)
    (by decide) (by decide) (by decide) (by decide)
